import Mathlib

/-!
# purple-hat: the signal-to-visual pipeline of `src/main.cpp`

A shallow embedding of `loop()`, `getAccelerometerChange()` and
`getMagnetometerHeading()`.

Modelling conventions
* `byte` values are natural numbers; every store into a `byte` is reduced
  modulo 256 explicitly.
* `unsigned long` values are natural numbers; the subtraction `now - lastCheck`
  is reduced modulo 2^32 explicitly.
* `float` values are rationals (every finite float is one); each arithmetic
  operation on them is rounded to binary32, to nearest, ties to even (`fl`).
  Comparisons are exact. `atan2` and `PI` are taken over the reals.
* The sensor driver (`GY_85`), the random generator (`random`) and the LED
  driver (`FastLED`) are outside the program: their results are inputs.
-/

namespace PurpleHat

/-! ## Data model -/

/-- The constant `LED_COUNT` of the source. -/
abbrev LED_COUNT : Nat := 34

/-- The source's `struct Pixel { byte value; byte color; }`. -/
structure Pixel where
  value : Nat
  color : Nat
deriving DecidableEq

/-- What one pass of the render loop writes to `leds[i]`: either `CRGB::Black`
or `ColorFromPalette(palette, color, value)`; the palette is not modelled, so
the call is recorded with its two arguments. -/
inductive Led where
  | black : Led
  | fromPalette (color value : Nat) : Led
deriving DecidableEq

/-- The global array `Pixel pixels[LED_COUNT]`. -/
abbrev PixelField := Fin LED_COUNT → Pixel

/-- The pixel field as `setup()` leaves it: every entry `{0, 0}`. -/
def initPixels : PixelField := fun _ => ⟨0, 0⟩

/-- Conversion of a float to an integer type: truncation toward zero. -/
def truncQ (q : ℚ) : ℤ := if 0 ≤ q then ⌊q⌋ else ⌈q⌉

/-- The cast `(byte) x` of an integer: reduction modulo 256. -/
def toByte (n : ℤ) : Nat := (n % 256).toNat

/-! ## binary32 arithmetic

A `float` is 32 bits wide (on the AVR targets of the Arduino core `double` is
too). Every finite binary32 value is a rational, and each arithmetic operation
returns the exact result rounded to the nearest binary32 value, ties to the one
with an even mantissa. Results of magnitude `2 ^ 128` and above (overflow) and
NaN do not arise from the values these routines handle and are not modelled. -/

/-- Rounding of a rational to the nearest integer, ties to the even one. -/
def roundNE (x : ℚ) : ℤ :=
  if x - ⌊x⌋ < 1 / 2 then ⌊x⌋
  else if 1 / 2 < x - ⌊x⌋ then ⌊x⌋ + 1
  else if ⌊x⌋ % 2 = 0 then ⌊x⌋ else ⌊x⌋ + 1

/-- The binary32 exponent of `q`: `floor (log2 |q|)`, but not below -126, the
exponent of the subnormal range (which zero shares). -/
def f32Exp (q : ℚ) : ℤ := if q = 0 then -126 else max (Int.log 2 |q|) (-126)

/-- The distance between neighbouring binary32 values around `q`: 24 bits of
mantissa. -/
def f32Ulp (q : ℚ) : ℚ := (2 : ℚ) ^ (f32Exp q - 23)

/-- Rounding of an exact result to binary32, to nearest, ties to even. -/
def fl (q : ℚ) : ℚ := (roundNE (q / f32Ulp q) : ℚ) * f32Ulp q

/-- The rational `q` is a binary32 value: rounding leaves it as it is. -/
def IsF32 (q : ℚ) : Prop := fl q = q

instance instDecidableIsF32 (q : ℚ) : Decidable (IsF32 q) :=
  inferInstanceAs (Decidable (fl q = q))

/-! ## The render / decay loop (main.cpp lines 96-104) -/

/-- The body of the render loop for one pixel: the value written to `leds[i]`
and the pixel as stored afterwards. The `color` field is never written here. -/
def renderPixel (p : Pixel) : Led × Pixel :=
  if p.value < 3 then
    (Led.black, { p with value := 0 })
  else
    (Led.fromPalette p.color p.value, { p with value := (p.value + 256 - 3) % 256 })

/-- The stored pixel after one pass of the render loop (one decay tick). -/
def decayTick (p : Pixel) : Pixel := (renderPixel p).2

/-- The render loop over the whole field: the stored pixels afterwards. -/
def decayField (px : PixelField) : PixelField := fun i => decayTick (px i)

/-- The render loop over the whole field: the frame written to `leds`. -/
def renderField (px : PixelField) : Fin LED_COUNT → Led := fun i => (renderPixel (px i)).1

/-- Whether a pass of the render loop takes the `value < 3` branch for `p`. -/
def extinguishBranch (p : Pixel) : Bool := decide (p.value < 3)

/-! ## The trigger (main.cpp lines 81-94) -/

/-- The two `if` statements of lines 83-94 as they act on `last_change`:
whether the first one fires, and `last_change` afterwards. -/
def triggerStep (last_change accChange : ℚ) : Bool × ℚ :=
  let fire : Bool := decide (accChange > 1 / 4 ∧ accChange > last_change)
  let l1 : ℚ := if fire then accChange else last_change
  let l2 : ℚ := if accChange < 1 / 10 then 0 else l1
  (fire, l2)

/-- The value of `last_change` after feeding the changes `cs`, one per iteration. -/
def lastChangeAfter (last_change : ℚ) (cs : List ℚ) : ℚ :=
  cs.foldl (fun l c => (triggerStep l c).2) last_change

/-- The fire flags of the iterations fed with `cs`, in order. -/
def firesOn : ℚ → List ℚ → List Bool
  | _, [] => []
  | l, c :: cs => (triggerStep l c).1 :: firesOn (triggerStep l c).2 cs

/-- One pass of the ignition loop (lines 86-88): `d.1` is what
`random(LED_COUNT)` returned and `d.2` what `random(16)` returned. An index
outside the array is undefined behaviour in the source; here it writes nothing. -/
def ignitePixel (color : Nat) (px : PixelField) (d : Nat × Nat) : PixelField :=
  let pixel : Nat := toByte d.1
  if h : pixel < LED_COUNT then
    Function.update px ⟨pixel, h⟩ ⟨255, toByte ((d.2 : ℤ) + (color : ℤ))⟩
  else px

/-- The ignition loop `for (byte i = 0; i < 20; i++)`, drawing twice per pass. -/
def ignite (color : Nat) (draws : Nat → Nat × Nat) (px : PixelField) : PixelField :=
  (List.range 20).foldl (fun acc i => ignitePixel color acc (draws i)) px

/-! ## The scheduler: one iteration of `loop()` (main.cpp lines 62-106) -/

/-- The static variables of `loop()` together with the global pixel field. -/
structure LoopState where
  lastCheck : Nat
  last_change : ℚ
  pixels : PixelField

/-- What one iteration reads from outside: the clock `millis()`, the floats
that `getAccelerometerChange()` and `getMagnetometerHeading()` return if they
are called (the two routines are embedded on their own below), and the results
of the calls of `random` (`draws i` for pass `i` of the ignition loop). -/
structure LoopInput where
  now : Nat
  accChange : ℚ
  heading : ℚ
  draws : Nat → Nat × Nat

/-- The guard `now - lastCheck > 100` on `unsigned long` (32 bits). -/
def sampleDue (now lastCheck : Nat) : Bool :=
  decide ((now + 2 ^ 32 - lastCheck) % 2 ^ 32 > 100)

/-- The local `accChange` after lines 65-79. -/
def sampledChange (s : LoopState) (inp : LoopInput) : ℚ :=
  if sampleDue inp.now s.lastCheck then inp.accChange else 0

/-- The local `color` after lines 67-79: `(byte) (heading / 360 * 255)` with the
division and the product each rounded to binary32 (360 and 255 convert
exactly). -/
def sampledColor (s : LoopState) (inp : LoopInput) : Nat :=
  if sampleDue inp.now s.lastCheck then
    toByte (truncQ (fl (fl (inp.heading / 360) * 255)))
  else 0

/-- The state after lines 62-94 (sampling and trigger), before the render loop. -/
def loopTrigger (s : LoopState) (inp : LoopInput) : LoopState :=
  let accChange := sampledChange s inp
  let color := sampledColor s inp
  let t := triggerStep s.last_change accChange
  { lastCheck := if sampleDue inp.now s.lastCheck then inp.now else s.lastCheck
    last_change := t.2
    pixels := if t.1 then ignite color inp.draws s.pixels else s.pixels }

/-- Whether the trigger fires in this iteration. -/
def loopFires (s : LoopState) (inp : LoopInput) : Bool :=
  (triggerStep s.last_change (sampledChange s inp)).1

/-- One whole iteration of `loop()`: the state afterwards. -/
def loop (s : LoopState) (inp : LoopInput) : LoopState :=
  let t := loopTrigger s inp
  { t with pixels := decayField t.pixels }

/-- The frame one iteration of `loop()` writes to `leds` before `FastLED.show()`. -/
def loopFrame (s : LoopState) (inp : LoopInput) : Fin LED_COUNT → Led :=
  renderField (loopTrigger s inp).pixels

/-- The state after the iterations fed with `inps`, in order. -/
def runLoop (s : LoopState) (inps : List LoopInput) : LoopState :=
  inps.foldl loop s

/-- Whether the trigger fires in none of the iterations fed with `inps`. -/
def quietRun : LoopState → List LoopInput → Bool
  | _, [] => true
  | s, inp :: rest => !loopFires s inp && quietRun (loop s inp) rest

/-- Whether this iteration runs the ignition loop and one of its 20 passes
writes pixel `i`. -/
def ignitesPixel (s : LoopState) (inp : LoopInput) (i : Fin LED_COUNT) : Bool :=
  loopFires s inp &&
    (List.range 20).any (fun k => decide (toByte ((inp.draws k).1 : ℤ) = i.val))

/-- Whether pixel `i` is ignited in none of the iterations fed with `inps`. -/
def noReignition (i : Fin LED_COUNT) : LoopState → List LoopInput → Bool
  | _, [] => true
  | s, inp :: rest => !ignitesPixel s inp i && noReignition i (loop s inp) rest

/-! ## The accelerometer metric (main.cpp lines 110-138) -/

/-- The static arrays `filtered` and `prevFiltered` of `getAccelerometerChange`. -/
structure FilterState where
  filtered : Fin 3 → ℚ
  prevFiltered : Fin 3 → ℚ

/-- The static arrays at power-on: all zero. -/
def initFilter : FilterState := ⟨fun _ => 0, fun _ => 0⟩

/-- The state the axis loop carries: the two static arrays and `total_change`. -/
structure AccLoop where
  st : FilterState
  total_change : ℚ

/-- The body of the axis loop (lines 121-136) for axis `i`, where `a` is the
raw reading `GY85.readFromAccelerometer()` returned. Every conversion and every
arithmetic operation is rounded to binary32; `abs` is exact. -/
def accAxis (a : Fin 3 → ℤ) (acc : AccLoop) (i : Fin 3) : AccLoop :=
  let reading : ℚ := fl (fl (a i : ℚ) * fl (78125 / 10000000))
  let alpha : ℚ := fl (1 / 2)
  let f : ℚ := fl (fl (reading * alpha) + fl (acc.st.filtered i * fl (1 - alpha)))
  let change : ℚ := fl (acc.st.prevFiltered i - f)
  { st := { filtered := Function.update acc.st.filtered i f
            prevFiltered := Function.update acc.st.prevFiltered i f }
    total_change := fl (acc.total_change + |change|) }

/-- The function `getAccelerometerChange`: the returned `total_change` and the
static arrays afterwards. -/
def getAccelerometerChange (st : FilterState) (a : Fin 3 → ℤ) : ℚ × FilterState :=
  let r := ([0, 1, 2] : List (Fin 3)).foldl (accAxis a) ⟨st, 0⟩
  (r.total_change, r.st)

/-- The filter state after `n` successive calls that all read `a`. -/
def filterAfter (st : FilterState) (a : Fin 3 → ℤ) : Nat → FilterState
  | 0 => st
  | n + 1 => (getAccelerometerChange (filterAfter st a n) a).2

/-- The raw reading of axis `i` in g, as an exact rational: the value of
`reading[i]` whenever the raw reading has at most 24 bits. -/
def scaledReading (a : Fin 3 → ℤ) (i : Fin 3) : ℚ := (a i : ℚ) * (78125 / 10000000)

/-- No floating-point operation of the call on state `st` with raw reading `a`
rounds: on every axis half the old estimate, the new estimate and its difference
to the baseline are binary32 values, and so are the partial sums of the absolute
differences. -/
def callIsExact (st : FilterState) (a : Fin 3 → ℤ) : Prop :=
  (∀ i : Fin 3, IsF32 (st.filtered i / 2) ∧
    IsF32 (scaledReading a i / 2 + st.filtered i / 2) ∧
    IsF32 (st.prevFiltered i - (scaledReading a i / 2 + st.filtered i / 2))) ∧
  IsF32 (|st.prevFiltered 0 - (scaledReading a 0 / 2 + st.filtered 0 / 2)| +
    |st.prevFiltered 1 - (scaledReading a 1 / 2 + st.filtered 1 / 2)|) ∧
  IsF32 (|st.prevFiltered 0 - (scaledReading a 0 / 2 + st.filtered 0 / 2)| +
    |st.prevFiltered 1 - (scaledReading a 1 / 2 + st.filtered 1 / 2)| +
    |st.prevFiltered 2 - (scaledReading a 2 / 2 + st.filtered 2 / 2)|)

instance instDecidableCallIsExact (st : FilterState) (a : Fin 3 → ℤ) :
    Decidable (callIsExact st a) := by
  unfold callIsExact
  infer_instance

/-! ## The magnetometer heading (main.cpp lines 142-168) -/

/-- The statement `*(i + a) *= 0.92` on an `int`: the product is computed in
floating point and converted back to `int`, which truncates toward zero. -/
def scaleGain (n : ℤ) : ℤ := truncQ ((n : ℚ) * (92 / 100))

/-- The library function `atan2(y, x)` over the reals: the argument of
`x + y i`, in `(-pi, pi]`, and `0` at the origin. -/
noncomputable def atan2 (y x : ℝ) : ℝ := Complex.arg ⟨x, y⟩

/-- The local `heading` after the sign correction of lines 158-160. -/
noncomputable def headingSigned (a : Fin 3 → ℤ) : ℝ :=
  let heading : ℝ := atan2 (scaleGain (a 1) : ℝ) (scaleGain (a 0) : ℝ)
  if heading < 0 then heading + 2 * Real.pi else heading

/-- Whether the guard `heading > 2 * PI` of line 163 holds. -/
def wrapBranchTaken (a : Fin 3 → ℤ) : Prop := headingSigned a > 2 * Real.pi

/-- The function `getMagnetometerHeading`, where `a` is the raw reading
`GY85.readFromCompass()` returned. -/
noncomputable def getMagnetometerHeading (a : Fin 3 → ℤ) : ℝ :=
  let heading : ℝ := headingSigned a
  let heading : ℝ := if heading > 2 * Real.pi then heading - 2 * Real.pi else heading
  heading * 180 / Real.pi

/-! ## Helper lemmas: binary32 rounding -/

theorem roundNE_intCast (n : ℤ) : roundNE (n : ℚ) = n := by
  unfold roundNE
  rw [Int.floor_intCast]
  norm_num

theorem floor_le_roundNE (x : ℚ) : ⌊x⌋ ≤ roundNE x := by
  unfold roundNE
  split_ifs <;> omega

theorem roundNE_le_floor_succ (x : ℚ) : roundNE x ≤ ⌊x⌋ + 1 := by
  unfold roundNE
  split_ifs <;> omega

theorem roundNE_le (x : ℚ) (n : ℤ) (h : x ≤ (n : ℚ)) : roundNE x ≤ n := by
  by_cases hx : x = (⌊x⌋ : ℚ)
  · have : roundNE x = ⌊x⌋ := by
      unfold roundNE
      rw [if_pos (by rw [← hx]; norm_num)]
    rw [this]
    exact Int.cast_le.mp (hx ▸ h)
  · have h1 : (⌊x⌋ : ℚ) < x := lt_of_le_of_ne (Int.floor_le x) (Ne.symm hx)
    have h2 : (⌊x⌋ : ℚ) < (n : ℚ) := lt_of_lt_of_le h1 h
    have h3 : ⌊x⌋ < n := Int.cast_lt.mp h2
    have := roundNE_le_floor_succ x
    omega

theorem le_roundNE (x : ℚ) (n : ℤ) (h : (n : ℚ) ≤ x) : n ≤ roundNE x :=
  le_trans (Int.le_floor.mpr h) (floor_le_roundNE x)

theorem f32Exp_ge (q : ℚ) : -126 ≤ f32Exp q := by
  unfold f32Exp
  split_ifs
  · exact le_refl _
  · exact le_max_right _ _

theorem log_le_f32Exp (q : ℚ) (hq : q ≠ 0) : Int.log 2 |q| ≤ f32Exp q := by
  unfold f32Exp
  rw [if_neg hq]
  exact le_max_left _ _

theorem f32Exp_eq_log (q : ℚ) (h : -126 < f32Exp q) : q ≠ 0 ∧ f32Exp q = Int.log 2 |q| := by
  unfold f32Exp at h ⊢
  by_cases hq : q = 0
  · rw [if_pos hq] at h
    exact absurd h (lt_irrefl _)
  · rw [if_neg hq] at h ⊢
    refine ⟨hq, ?_⟩
    rcases max_cases (Int.log 2 |q|) (-126) with ⟨h1, _⟩ | ⟨h1, _⟩
    · exact h1
    · rw [h1] at h
      exact absurd h (lt_irrefl _)

theorem f32Ulp_pos (q : ℚ) : 0 < f32Ulp q := by
  unfold f32Ulp
  positivity

/-- `|q| < 2 ^ (f32Exp q + 1)`. -/
theorem abs_lt_zpow_f32Exp (q : ℚ) : |q| < (2 : ℚ) ^ (f32Exp q + 1) := by
  by_cases hq : q = 0
  · rw [hq, abs_zero]
    positivity
  · have h1 : |q| < ((2 : ℕ) : ℚ) ^ (Int.log 2 |q| + 1) :=
      Int.lt_zpow_succ_log_self (by decide) |q|
    rw [Nat.cast_ofNat] at h1
    have h2 : (2 : ℚ) ^ (Int.log 2 |q| + 1) ≤ (2 : ℚ) ^ (f32Exp q + 1) :=
      zpow_le_zpow_right₀ (by norm_num) (by have := log_le_f32Exp q hq; omega)
    exact lt_of_lt_of_le h1 h2

/-- Above the subnormal range `2 ^ f32Exp q ≤ |q|`. -/
theorem zpow_f32Exp_le_abs (q : ℚ) (h : -126 < f32Exp q) : (2 : ℚ) ^ f32Exp q ≤ |q| := by
  obtain ⟨hq, he⟩ := f32Exp_eq_log q h
  rw [he]
  have := Int.zpow_log_le_self (b := 2) (by decide) (abs_pos.mpr hq)
  rwa [Nat.cast_ofNat] at this

/-- A value with a smaller exponent is smaller in magnitude than `2 ^ f32Exp q`. -/
theorem abs_lt_of_f32Exp_lt (b q : ℚ) (h : f32Exp b < f32Exp q) :
    |b| < (2 : ℚ) ^ f32Exp q :=
  lt_of_lt_of_le (abs_lt_zpow_f32Exp b) (zpow_le_zpow_right₀ (by norm_num) (by omega))

theorem fl_zero : fl 0 = 0 := by
  unfold fl
  rw [zero_div]
  have : roundNE 0 = 0 := by
    have := roundNE_intCast 0
    simpa using this
  rw [this]
  simp

/-- The exponent's power of two is `2 ^ 23` grid steps. -/
theorem zpow_f32Exp_eq (q : ℚ) : (2 : ℚ) ^ f32Exp q = 8388608 * f32Ulp q := by
  unfold f32Ulp
  rw [zpow_sub₀ (by norm_num : (2 : ℚ) ≠ 0)]
  have h : (2 : ℚ) ^ (23 : ℤ) = 8388608 := by norm_num
  rw [h]
  ring

/-- The mantissa of `q` on its own grid is below `2 ^ 24` in magnitude. -/
theorem abs_div_f32Ulp_lt (q : ℚ) : |q / f32Ulp q| < (2 : ℚ) ^ (24 : ℤ) := by
  rw [abs_div, abs_of_pos (f32Ulp_pos q), div_lt_iff₀ (f32Ulp_pos q)]
  have h := abs_lt_zpow_f32Exp q
  have he : (2 : ℚ) ^ (24 : ℤ) * f32Ulp q = (2 : ℚ) ^ (f32Exp q + 1) := by
    unfold f32Ulp
    rw [← zpow_add₀ (by norm_num : (2 : ℚ) ≠ 0)]
    congr 1
    ring
  rw [he]
  exact h

/-- Grid points at a coarser or equal exponent lie on the grid of `q`. -/
theorem exists_mul_f32Ulp_of_isF32 (b q : ℚ) (hb : IsF32 b) (he : f32Exp q ≤ f32Exp b) :
    ∃ N : ℤ, b = (N : ℚ) * f32Ulp q := by
  obtain ⟨n, hn⟩ : ∃ n : ℕ, f32Exp b - f32Exp q = (n : ℤ) :=
    ⟨(f32Exp b - f32Exp q).toNat, by omega⟩
  refine ⟨roundNE (b / f32Ulp b) * 2 ^ n, ?_⟩
  have hb' : b = (roundNE (b / f32Ulp b) : ℚ) * f32Ulp b := hb.symm
  have hu : f32Ulp b = (2 : ℚ) ^ n * f32Ulp q := by
    unfold f32Ulp
    rw [← zpow_natCast, ← zpow_add₀ (by norm_num : (2 : ℚ) ≠ 0)]
    congr 1
    omega
  push_cast
  rw [mul_assoc, ← hu]
  exact hb'

/-- Rounding does not cross a binary32 value above. -/
theorem fl_le_of_le (q b : ℚ) (hb : IsF32 b) (h : q ≤ b) : fl q ≤ b := by
  have hu := f32Ulp_pos q
  by_cases he : f32Exp q ≤ f32Exp b
  · obtain ⟨N, hN⟩ := exists_mul_f32Ulp_of_isF32 b q hb he
    have h1 : q / f32Ulp q ≤ (N : ℚ) := by
      rw [div_le_iff₀ hu, ← hN]
      exact h
    have h2 := roundNE_le _ N h1
    unfold fl
    rw [hN]
    exact mul_le_mul_of_nonneg_right (by exact_mod_cast h2) hu.le
  · have hlt : f32Exp b < f32Exp q := not_le.mp he
    have hb1 := abs_lt_of_f32Exp_lt b q hlt
    have hq1 := zpow_f32Exp_le_abs q (by have := f32Exp_ge b; omega)
    have hneg : q < 0 := by
      by_contra hn
      have hq0 : 0 ≤ q := not_lt.mp hn
      have : |q| ≤ |b| := by
        rw [abs_of_nonneg hq0, abs_of_nonneg (le_trans hq0 h)]
        exact h
      linarith
    rw [abs_of_neg hneg] at hq1
    have hE := zpow_f32Exp_eq q
    have h1 : q / f32Ulp q ≤ ((-8388608 : ℤ) : ℚ) := by
      rw [div_le_iff₀ hu]
      push_cast
      linarith
    have h2 := roundNE_le _ _ h1
    have h3 : fl q ≤ ((-8388608 : ℤ) : ℚ) * f32Ulp q := by
      unfold fl
      exact mul_le_mul_of_nonneg_right (by exact_mod_cast h2) hu.le
    have h4 : -|b| ≤ b := neg_abs_le b
    push_cast at h3
    linarith

/-- Rounding does not cross a binary32 value below. -/
theorem le_fl_of_le (q a : ℚ) (ha : IsF32 a) (h : a ≤ q) : a ≤ fl q := by
  have hu := f32Ulp_pos q
  by_cases he : f32Exp q ≤ f32Exp a
  · obtain ⟨N, hN⟩ := exists_mul_f32Ulp_of_isF32 a q ha he
    have h1 : (N : ℚ) ≤ q / f32Ulp q := by
      rw [le_div_iff₀ hu, ← hN]
      exact h
    have h2 := le_roundNE _ N h1
    unfold fl
    rw [hN]
    exact mul_le_mul_of_nonneg_right (by exact_mod_cast h2) hu.le
  · have hlt : f32Exp a < f32Exp q := not_le.mp he
    have ha1 := abs_lt_of_f32Exp_lt a q hlt
    have hq1 := zpow_f32Exp_le_abs q (by have := f32Exp_ge a; omega)
    have hpos : 0 < q := by
      by_contra hn
      have hq0 : q ≤ 0 := not_lt.mp hn
      have : |q| ≤ |a| := by
        rw [abs_of_nonpos hq0, abs_of_nonpos (le_trans h hq0)]
        linarith
      linarith
    rw [abs_of_pos hpos] at hq1
    have hE := zpow_f32Exp_eq q
    have h1 : ((8388608 : ℤ) : ℚ) ≤ q / f32Ulp q := by
      rw [le_div_iff₀ hu]
      push_cast
      linarith
    have h2 := le_roundNE _ _ h1
    have h3 : ((8388608 : ℤ) : ℚ) * f32Ulp q ≤ fl q := by
      unfold fl
      exact mul_le_mul_of_nonneg_right (by exact_mod_cast h2) hu.le
    have h4 : a ≤ |a| := le_abs_self a
    push_cast at h3
    linarith

theorem isF32_zero : IsF32 0 := fl_zero

theorem fl_nonneg (q : ℚ) (h : 0 ≤ q) : 0 ≤ fl q := le_fl_of_le q 0 isF32_zero h

/-- An integer of magnitude below `2 ^ 24` times a power of two not below
`2 ^ -149` is a binary32 value. -/
theorem isF32_of_dyadic (m k : ℤ) (hm : |m| < 2 ^ 24) (hk : -149 ≤ k) :
    IsF32 ((m : ℚ) * (2 : ℚ) ^ k) := by
  have hmq : |(m : ℚ)| < (2 : ℚ) ^ (24 : ℤ) := by
    have : ((|m| : ℤ) : ℚ) < (((2 : ℤ) ^ 24 : ℤ) : ℚ) := Int.cast_lt.mpr hm
    rw [Int.cast_abs] at this
    norm_num at this ⊢
    exact this
  have h2k : (0 : ℚ) < (2 : ℚ) ^ k := by positivity
  have habs : |(m : ℚ) * (2 : ℚ) ^ k| < (2 : ℚ) ^ (k + 24) := by
    rw [abs_mul, abs_of_pos h2k, zpow_add₀ (by norm_num : (2 : ℚ) ≠ 0), mul_comm]
    exact mul_lt_mul_of_pos_left hmq h2k
  have he : f32Exp ((m : ℚ) * (2 : ℚ) ^ k) ≤ k + 23 := by
    by_cases h126 : -126 < f32Exp ((m : ℚ) * (2 : ℚ) ^ k)
    · have h1 := zpow_f32Exp_le_abs _ h126
      have h2 := lt_of_le_of_lt h1 habs
      have h3 := (zpow_lt_zpow_iff_right₀ (by norm_num : (1 : ℚ) < 2)).mp h2
      omega
    · omega
  obtain ⟨n, hn⟩ : ∃ n : ℕ, k + 23 - f32Exp ((m : ℚ) * (2 : ℚ) ^ k) = (n : ℤ) :=
    ⟨(k + 23 - f32Exp ((m : ℚ) * (2 : ℚ) ^ k)).toNat, by omega⟩
  have hk2 : (2 : ℚ) ^ k = (2 : ℚ) ^ n * f32Ulp ((m : ℚ) * (2 : ℚ) ^ k) := by
    unfold f32Ulp
    rw [← zpow_natCast, ← zpow_add₀ (by norm_num : (2 : ℚ) ≠ 0)]
    congr 1
    omega
  have hu := f32Ulp_pos ((m : ℚ) * (2 : ℚ) ^ k)
  have hdiv : (m : ℚ) * (2 : ℚ) ^ k / f32Ulp ((m : ℚ) * (2 : ℚ) ^ k) =
      ((m * 2 ^ n : ℤ) : ℚ) := by
    rw [div_eq_iff hu.ne']
    push_cast
    rw [mul_assoc, ← hk2]
  unfold IsF32 fl
  rw [hdiv, roundNE_intCast]
  push_cast
  rw [mul_assoc, ← hk2]

/-- The result of rounding is a binary32 value. -/
theorem isF32_fl (q : ℚ) : IsF32 (fl q) := by
  have hu := f32Ulp_pos q
  have hlt := abs_div_f32Ulp_lt q
  have h24 : (2 : ℚ) ^ (24 : ℤ) = ((16777216 : ℤ) : ℚ) := by norm_num
  rw [h24] at hlt
  have hle1 : roundNE (q / f32Ulp q) ≤ 16777216 :=
    roundNE_le _ _ (le_trans (le_abs_self _) hlt.le)
  have hle2 : -16777216 ≤ roundNE (q / f32Ulp q) := by
    apply le_roundNE
    have := neg_abs_le (q / f32Ulp q)
    push_cast
    push_cast at hlt
    linarith
  have hge := f32Exp_ge q
  have hfl : fl q = (roundNE (q / f32Ulp q) : ℚ) * (2 : ℚ) ^ (f32Exp q - 23) := rfl
  by_cases h1 : roundNE (q / f32Ulp q) = 16777216
  · have : fl q = ((1 : ℤ) : ℚ) * (2 : ℚ) ^ (f32Exp q + 1) := by
      rw [hfl, h1, zpow_sub₀ (by norm_num : (2 : ℚ) ≠ 0), zpow_add₀ (by norm_num : (2 : ℚ) ≠ 0)]
      norm_num
      ring
    rw [this]
    exact isF32_of_dyadic 1 _ (by decide) (by omega)
  · by_cases h2 : roundNE (q / f32Ulp q) = -16777216
    · have : fl q = ((-1 : ℤ) : ℚ) * (2 : ℚ) ^ (f32Exp q + 1) := by
        rw [hfl, h2, zpow_sub₀ (by norm_num : (2 : ℚ) ≠ 0),
          zpow_add₀ (by norm_num : (2 : ℚ) ≠ 0)]
        norm_num
        ring
      rw [this]
      exact isF32_of_dyadic (-1) _ (by decide) (by omega)
    · rw [hfl]
      apply isF32_of_dyadic _ _ _ (by omega)
      rw [abs_lt]
      constructor <;> omega

/-- A binary32 value is its mantissa times its grid step, the mantissa below
`2 ^ 24` in magnitude. -/
theorem isF32_mantissa (f : ℚ) (hf : IsF32 f) :
    ∃ M : ℤ, |M| < 2 ^ 24 ∧ f = (M : ℚ) * (2 : ℚ) ^ (f32Exp f - 23) := by
  refine ⟨roundNE (f / f32Ulp f), ?_, hf.symm⟩
  have hu := f32Ulp_pos f
  have hM : ((roundNE (f / f32Ulp f) : ℤ) : ℚ) = f / f32Ulp f := by
    rw [eq_div_iff hu.ne']
    exact hf
  have hlt := abs_div_f32Ulp_lt f
  rw [← hM, ← Int.cast_abs] at hlt
  have h24 : (2 : ℚ) ^ (24 : ℤ) = (((2 : ℤ) ^ 24 : ℤ) : ℚ) := by norm_num
  rw [h24] at hlt
  exact Int.cast_lt.mp hlt

/-- Half of a binary32 value of magnitude at least `2 ^ -125` is a binary32
value. -/
theorem isF32_half (f : ℚ) (hf : IsF32 f) (h : (2 : ℚ) ^ (-125 : ℤ) ≤ |f|) :
    IsF32 (f / 2) := by
  obtain ⟨M, hM, hfM⟩ := isF32_mantissa f hf
  have he : -125 ≤ f32Exp f := by
    have h1 := lt_of_le_of_lt h (abs_lt_zpow_f32Exp f)
    have h2 := (zpow_lt_zpow_iff_right₀ (by norm_num : (1 : ℚ) < 2)).mp h1
    omega
  have : f / 2 = (M : ℚ) * (2 : ℚ) ^ (f32Exp f - 23 - 1) := by
    calc f / 2 = (M : ℚ) * (2 : ℚ) ^ (f32Exp f - 23) / 2 := by rw [← hfM]
      _ = (M : ℚ) * (2 : ℚ) ^ (f32Exp f - 23 - 1) := by
        rw [zpow_sub₀ (by norm_num : (2 : ℚ) ≠ 0) (f32Exp f - 23) 1]
        generalize (2 : ℚ) ^ (f32Exp f - 23) = u
        norm_num
        ring
  rw [this]
  exact isF32_of_dyadic M _ hM (by omega)

/-- Evaluation of the exponent from a bracket by powers of two. -/
theorem f32Exp_eq_of_bounds (q : ℚ) (e : ℤ) (h1 : (2 : ℚ) ^ e ≤ |q|)
    (h2 : |q| < (2 : ℚ) ^ (e + 1)) (he : -126 ≤ e) : f32Exp q = e := by
  have hq : q ≠ 0 := by
    intro h0
    rw [h0, abs_zero] at h1
    have : (0 : ℚ) < (2 : ℚ) ^ e := by positivity
    linarith
  have hpos : 0 < |q| := abs_pos.mpr hq
  have hl1 : e ≤ Int.log 2 |q| := by
    apply (Int.zpow_le_iff_le_log (b := 2) (by decide) hpos).mp
    rw [Nat.cast_ofNat]
    exact h1
  have hl2 : Int.log 2 |q| < e + 1 := by
    apply (Int.lt_zpow_iff_log_lt (b := 2) (by decide) hpos).mp
    rw [Nat.cast_ofNat]
    exact h2
  unfold f32Exp
  rw [if_neg hq]
  have : Int.log 2 |q| = e := by omega
  rw [this]
  exact max_eq_left he

/-- Evaluation of a rounding from the exponent bracket and the rounded
mantissa. -/
theorem fl_eq_of_bounds (q : ℚ) (e n : ℤ) (h1 : (2 : ℚ) ^ e ≤ |q|)
    (h2 : |q| < (2 : ℚ) ^ (e + 1)) (he : -126 ≤ e)
    (hn : roundNE (q / (2 : ℚ) ^ (e - 23)) = n) : fl q = (n : ℚ) * (2 : ℚ) ^ (e - 23) := by
  unfold fl f32Ulp
  rw [f32Exp_eq_of_bounds q e h1 h2 he, hn]

/-- A rational strictly within one half of an integer rounds to it. -/
theorem roundNE_eq_of_near (x : ℚ) (n : ℤ) (h1 : (n : ℚ) - 1 / 2 < x)
    (h2 : x < (n : ℚ) + 1 / 2) : roundNE x = n := by
  have hfl : ⌊x⌋ = n ∨ ⌊x⌋ = n - 1 := by
    have ha : n - 1 ≤ ⌊x⌋ := Int.le_floor.mpr (by push_cast; linarith)
    have hb : ⌊x⌋ < n + 1 := Int.floor_lt.mpr (by push_cast; linarith)
    omega
  unfold roundNE
  rcases hfl with h | h
  · rw [h, if_pos (by linarith)]
  · rw [h]
    push_cast
    rw [if_neg (by linarith), if_pos (by linarith)]
    ring

/-- A tie between an odd integer below and an even one above rounds up. -/
theorem roundNE_tie_up (n : ℤ) (hodd : n % 2 = 1) : roundNE ((n : ℚ) + 1 / 2) = n + 1 := by
  have hfl : ⌊(n : ℚ) + 1 / 2⌋ = n := by
    rw [Int.floor_eq_iff]
    constructor <;> linarith
  unfold roundNE
  rw [hfl]
  rw [if_neg (by norm_num), if_neg (by norm_num), if_neg (by omega)]

/-- A tie between an even integer below and an odd one above rounds down. -/
theorem roundNE_tie_down (n : ℤ) (heven : n % 2 = 0) : roundNE ((n : ℚ) + 1 / 2) = n := by
  have hfl : ⌊(n : ℚ) + 1 / 2⌋ = n := by
    rw [Int.floor_eq_iff]
    constructor <;> linarith
  unfold roundNE
  rw [hfl]
  rw [if_neg (by norm_num), if_neg (by norm_num), if_pos heven]

/-! ## Helper lemmas: decay -/

theorem decayTick_color (p : Pixel) : (decayTick p).color = p.color := by
  unfold decayTick renderPixel
  split <;> rfl

theorem decayTick_value_lt (p : Pixel) (h : p.value < 3) : (decayTick p).value = 0 := by
  unfold decayTick renderPixel
  simp [h]

theorem decayTick_value_ge (p : Pixel) (h3 : 3 ≤ p.value) (hb : p.value < 256) :
    (decayTick p).value = p.value - 3 := by
  unfold decayTick renderPixel
  have h : ¬ p.value < 3 := by omega
  simp only [h, if_false]
  show (p.value + 256 - 3) % 256 = p.value - 3
  omega

theorem decayTick_iterate_color (n : Nat) (p : Pixel) :
    (decayTick^[n] p).color = p.color := by
  induction n with
  | zero => rfl
  | succ k ih => rw [Function.iterate_succ_apply', decayTick_color, ih]

/-- While the brightness has not dropped below 3, `k` ticks subtract `3 * k`. -/
theorem decayTick_iterate_value (B c : Nat) (hB : B < 256) (k : Nat) (hk : k ≤ B / 3) :
    decayTick^[k] ⟨B, c⟩ = ⟨B - 3 * k, c⟩ := by
  induction k with
  | zero => rfl
  | succ j ih =>
    have hj : j ≤ B / 3 := by omega
    rw [Function.iterate_succ_apply', ih hj]
    have h3 : 3 ≤ B - 3 * j := by omega
    have hv := decayTick_value_ge ⟨B - 3 * j, c⟩ h3 (by show B - 3 * j < 256; omega)
    have hc := decayTick_color ⟨B - 3 * j, c⟩
    cases hd : decayTick ⟨B - 3 * j, c⟩ with
    | mk v col =>
      rw [hd] at hv hc
      simp only at hv hc
      subst hv hc
      congr 1

/-- A pixel whose brightness is 0 stays as it is under further ticks. -/
theorem decayTick_iterate_zero (c : Nat) (n : Nat) : decayTick^[n] ⟨0, c⟩ = ⟨0, c⟩ := by
  induction n with
  | zero => rfl
  | succ k ih =>
    rw [Function.iterate_succ_apply', ih]
    rfl

/-! ## Claims -/

/-- C1: fed one motion-change value per iteration from `last_change = 0`, the
trigger fires exactly when `change > 0.25` and `change > last_change`; on firing
`last_change` becomes `change`, whenever `change < 0.1` it becomes 0, otherwise it
is unchanged. On `[0.1, 0.3, 0.5, 0.5, 0.05]` it fires exactly at indices 1 and 2
(not at 3) and `last_change` is 0 after index 4. -/
theorem trigger_fires_iff_rising :
    (∀ (pre : List ℚ) (c : ℚ),
      ((triggerStep (lastChangeAfter 0 pre) c).1 = true ↔
          (c > 1 / 4 ∧ c > lastChangeAfter 0 pre)) ∧
      ((triggerStep (lastChangeAfter 0 pre) c).1 = true →
          lastChangeAfter 0 (pre ++ [c]) = c) ∧
      (c < 1 / 10 → lastChangeAfter 0 (pre ++ [c]) = 0) ∧
      ((triggerStep (lastChangeAfter 0 pre) c).1 = false → ¬ c < 1 / 10 →
          lastChangeAfter 0 (pre ++ [c]) = lastChangeAfter 0 pre)) ∧
    firesOn 0 [1 / 10, 3 / 10, 1 / 2, 1 / 2, 1 / 20] = [false, true, true, false, false] ∧
    lastChangeAfter 0 [1 / 10, 3 / 10, 1 / 2, 1 / 2] = 1 / 2 ∧
    lastChangeAfter 0 [1 / 10, 3 / 10, 1 / 2, 1 / 2, 1 / 20] = 0 := by
  refine ⟨?_, ?_, ?_, ?_⟩
  · intro pre c
    have happ : lastChangeAfter 0 (pre ++ [c]) = (triggerStep (lastChangeAfter 0 pre) c).2 := by
      simp [lastChangeAfter, List.foldl_append]
    rw [happ]
    generalize lastChangeAfter 0 pre = l
    unfold triggerStep
    refine ⟨by simp, ?_, ?_, ?_⟩
    · intro hf
      simp only [decide_eq_true_eq] at hf
      have h1 : ¬ c < 1 / 10 := by linarith [hf.1]
      simp only [decide_eq_true_eq, if_pos hf, if_neg h1]
    · intro hc
      simp only [if_pos hc]
    · intro hf hc
      simp only [decide_eq_false_iff_not] at hf
      simp only [decide_eq_true_eq, if_neg hf, if_neg hc]
  · norm_num [firesOn, triggerStep]
  · norm_num [lastChangeAfter, triggerStep]
  · norm_num [lastChangeAfter, triggerStep]

/-- The spec's tick count `ceil((B-2)/3)` is the integer quotient `B / 3`. -/
theorem ceil_sub_two_div_three (B : Nat) : ⌈((B : ℚ) - 2) / 3⌉ = ((B / 3 : ℕ) : ℤ) := by
  have h1 : 3 * (B / 3) ≤ B := Nat.mul_div_le B 3
  have h2 : B < 3 * (B / 3) + 3 := by omega
  generalize B / 3 = q at h1 h2
  have h1q : (3 : ℚ) * (q : ℚ) ≤ (B : ℚ) := by exact_mod_cast h1
  have h2q : (B : ℚ) ≤ 3 * (q : ℚ) + 2 := by
    have h3 : B ≤ 3 * q + 2 := by omega
    exact_mod_cast h3
  rw [Int.ceil_eq_iff]
  simp only [Int.cast_natCast]
  constructor
  · linarith
  · linarith

/-- C2 (as stated, refuted): the state `{0, 0}` is not reached after exactly
`ceil((B-2)/3)+1` ticks. The pixel `{3, 0}` is in state `{0, 0}` after one tick,
while the formula gives 2; the pixel `{255, 7}` never reaches `{0, 0}`, because
the decay step does not write the colour index. -/
theorem decay_reach_zero_counterexample :
    decayTick^[1] ⟨3, 0⟩ = ⟨0, 0⟩ ∧ ⌈((3 : ℚ) - 2) / 3⌉ + 1 = 2 ∧
    (∀ n : Nat, decayTick^[n] ⟨255, 7⟩ ≠ ⟨0, 0⟩) := by
  refine ⟨by decide, ?_, ?_⟩
  · have h := ceil_sub_two_div_three 3
    simp only [Nat.cast_ofNat] at h
    rw [h]
    rfl
  · intro n h
    have hc := decayTick_iterate_color n ⟨255, 7⟩
    rw [h] at hc
    exact absurd hc (by decide)

/-- C2 (amended): for a pixel of brightness `B` in [0,255] and any colour index
`c`, the first decay tick that takes the `value < 3` branch is tick number
`ceil((B-2)/3)+1` (the first tick when `B < 3`); after that tick the pixel is
`{0, c}`: brightness 0, colour index unchanged. -/
theorem decay_extinguish_tick (B c n : Nat) (hB : B < 256)
    (hn : (n : ℤ) = ⌈((B : ℚ) - 2) / 3⌉ + 1) :
    (∀ k, k + 1 < n → extinguishBranch (decayTick^[k] ⟨B, c⟩) = false) ∧
    extinguishBranch (decayTick^[n - 1] ⟨B, c⟩) = true ∧
    decayTick^[n] ⟨B, c⟩ = ⟨0, c⟩ ∧
    (B < 3 → n = 1) := by
  rw [ceil_sub_two_div_three] at hn
  have hn' : n = B / 3 + 1 := by exact_mod_cast hn
  subst hn'
  have hlast := decayTick_iterate_value B c hB (B / 3) le_rfl
  refine ⟨?_, ?_, ?_, ?_⟩
  · intro k hk
    rw [decayTick_iterate_value B c hB k (by omega)]
    simp only [extinguishBranch, decide_eq_false_iff_not]
    omega
  · simp only [Nat.add_sub_cancel, hlast, extinguishBranch, decide_eq_true_eq]
    omega
  · rw [Function.iterate_succ_apply', hlast]
    have hlt : B - 3 * (B / 3) < 3 := by omega
    have hv := decayTick_value_lt ⟨B - 3 * (B / 3), c⟩ hlt
    have hc := decayTick_color ⟨B - 3 * (B / 3), c⟩
    cases hd : decayTick ⟨B - 3 * (B / 3), c⟩ with
    | mk v col =>
      rw [hd] at hv hc
      simp only at hv hc
      subst hv hc
      rfl
  · intro h
    have : B / 3 = 0 := by omega
    omega

/-- C2 (amended), at brightness 255 and colour index 7: tick 86 is the first to
take the `value < 3` branch and leaves `{0, 7}`. -/
theorem decay_extinguish_tick_witness :
    (∀ k, k + 1 < 86 → extinguishBranch (decayTick^[k] ⟨255, 7⟩) = false) ∧
    extinguishBranch (decayTick^[86 - 1] ⟨255, 7⟩) = true ∧
    decayTick^[86] ⟨255, 7⟩ = ⟨0, 7⟩ ∧
    (255 < 3 → 86 = 1) :=
  decay_extinguish_tick 255 7 86 (by decide) (by
    rw [ceil_sub_two_div_three]
    rfl)

/-- C3 (as stated, refuted): the decay step on a pixel of brightness below 3
keeps the colour index, and the pixel `{255, 200}` never reaches `{0, 0}`: after
86 ticks it is `{0, 200}`. -/
theorem decay_forgets_color_counterexample :
    decayTick ⟨2, 200⟩ = ⟨0, 200⟩ ∧ decayTick^[86] ⟨255, 200⟩ = ⟨0, 200⟩ ∧
    (∀ n : Nat, decayTick^[n] ⟨255, 200⟩ ≠ ⟨0, 0⟩) := by
  refine ⟨by decide, ?_, ?_⟩
  · rw [show 86 = 1 + 85 from rfl, Function.iterate_add_apply,
      decayTick_iterate_value 255 200 (by decide) 85 (by decide)]
    rfl
  intro n h
  have hc := decayTick_iterate_color n ⟨255, 200⟩
  rw [h] at hc
  exact absurd hc (by decide)

/-- C3 (amended): for every colour index `c`, the pixel `{255, c}` under decay
ticks has brightness `255 - 3 n` after `n < 85` ticks and is `{0, c}` after any
`n >= 85` ticks: extinguished with its colour index kept. The decay step on any
pixel of brightness below 3 stores brightness 0 and leaves the colour index. -/
theorem decay_roundtrip_keeps_color (c n : Nat) :
    (n < 85 → decayTick^[n] ⟨255, c⟩ = ⟨255 - 3 * n, c⟩) ∧
    (85 ≤ n → decayTick^[n] ⟨255, c⟩ = ⟨0, c⟩) ∧
    (∀ p : Pixel, p.value < 3 → decayTick p = ⟨0, p.color⟩) := by
  refine ⟨?_, ?_, ?_⟩
  · intro h
    exact decayTick_iterate_value 255 c (by decide) n (by omega)
  · intro h
    obtain ⟨m, rfl⟩ : ∃ m, n = m + 85 := ⟨n - 85, by omega⟩
    rw [Function.iterate_add_apply, decayTick_iterate_value 255 c (by decide) 85 (by decide)]
    exact decayTick_iterate_zero c m
  · intro p hp
    unfold decayTick renderPixel
    simp [hp]

/-! ## Helper lemmas: the accelerometer filter -/

theorem isF32_of_eq_dyadic (q : ℚ) (m k : ℤ) (hm : |m| < 2 ^ 24) (hk : -149 ≤ k)
    (h : q = (m : ℚ) * (2 : ℚ) ^ k) : IsF32 q := by
  rw [h]
  exact isF32_of_dyadic m k hm hk

theorem fl_half : fl (1 / 2) = 1 / 2 :=
  isF32_of_eq_dyadic (1 / 2) 1 (-1) (by decide) (by decide) (by norm_num)

theorem fl_one_sub_half : fl (1 - fl (1 / 2)) = 1 / 2 := by
  have h : (1 : ℚ) - 1 / 2 = 1 / 2 := by norm_num
  rw [fl_half, h]
  exact fl_half

/-- The literal `0.0078125` is `2 ^ -7`, a binary32 value. -/
theorem fl_resolution : fl (78125 / 10000000) = 78125 / 10000000 :=
  isF32_of_eq_dyadic (78125 / 10000000) 1 (-7) (by decide) (by decide) (by norm_num)

/-- An integer of at most 24 bits converts to `float` exactly. -/
theorem fl_intCast (n : ℤ) (h : |n| < 2 ^ 24) : fl (n : ℚ) = (n : ℚ) :=
  isF32_of_eq_dyadic (n : ℚ) n 0 h (by decide) (by simp)

/-- The scaled reading of a raw value of at most 24 bits is a binary32 value. -/
theorem isF32_scaled (n : ℤ) (h : |n| < 2 ^ 24) : IsF32 ((n : ℚ) * (78125 / 10000000)) :=
  isF32_of_eq_dyadic _ n (-7) h (by decide) (by norm_num)

/-- So is half of it. -/
theorem isF32_scaled_half (n : ℤ) (h : |n| < 2 ^ 24) :
    IsF32 ((n : ℚ) * (78125 / 10000000) / 2) :=
  isF32_of_eq_dyadic _ n (-8) h (by decide) (by norm_num; ring)

/-- The new estimate on axis `i`, every operation rounded. -/
theorem getAccelerometerChange_filtered_raw (st : FilterState) (a : Fin 3 → ℤ) (i : Fin 3) :
    (getAccelerometerChange st a).2.filtered i =
      fl (fl (fl (fl (a i : ℚ) * fl (78125 / 10000000)) * fl (1 / 2)) +
        fl (st.filtered i * fl (1 - fl (1 / 2)))) := by
  fin_cases i <;> simp [getAccelerometerChange, accAxis, Function.update]

/-- The new estimate on axis `i` for a raw reading of at most 24 bits: only the
halving of the old estimate and the final sum can round. -/
theorem getAccelerometerChange_filtered (st : FilterState) (a : Fin 3 → ℤ) (i : Fin 3)
    (ha : |a i| < 2 ^ 24) :
    (getAccelerometerChange st a).2.filtered i =
      fl (scaledReading a i / 2 + fl (st.filtered i / 2)) := by
  rw [getAccelerometerChange_filtered_raw, fl_intCast (a i) ha, fl_resolution,
    (isF32_scaled (a i) ha : fl _ = _), fl_one_sub_half, fl_half]
  have h1 : (a i : ℚ) * (78125 / 10000000) * (1 / 2) = (a i : ℚ) * (78125 / 10000000) / 2 := by
    ring
  have h2 : st.filtered i * (1 / 2) = st.filtered i / 2 := by ring
  rw [h1, h2, (isF32_scaled_half (a i) ha : fl _ = _)]
  rfl

/-- After the call the baseline equals the new estimate on axis `i`. -/
theorem getAccelerometerChange_prev (st : FilterState) (a : Fin 3 → ℤ) (i : Fin 3) :
    (getAccelerometerChange st a).2.prevFiltered i =
      (getAccelerometerChange st a).2.filtered i := by
  fin_cases i <;> simp [getAccelerometerChange, accAxis, Function.update]

/-- The returned total written out axis by axis: each difference and each
partial sum is rounded. -/
theorem getAccelerometerChange_total (st : FilterState) (a : Fin 3 → ℤ) :
    (getAccelerometerChange st a).1 =
      fl (fl (fl (0 + |fl (st.prevFiltered 0 - (getAccelerometerChange st a).2.filtered 0)|) +
        |fl (st.prevFiltered 1 - (getAccelerometerChange st a).2.filtered 1)|) +
        |fl (st.prevFiltered 2 - (getAccelerometerChange st a).2.filtered 2)|) := by
  simp [getAccelerometerChange, accAxis, Function.update]

/-- The exact value the update rounds lies between the reading and the old
estimate: `r` is a scaled reading, so it is 0 or at least `2 ^ -7` in magnitude,
and the halving of `f` rounds only when `f` is below `2 ^ -125`. -/
theorem axis_sum_between (r f : ℚ) (hrb : r = 0 ∨ (2 : ℚ) ^ (-7 : ℤ) ≤ |r|) (hf : IsF32 f) :
    min r f ≤ r / 2 + fl (f / 2) ∧ r / 2 + fl (f / 2) ≤ max r f := by
  by_cases hh : IsF32 (f / 2)
  · rw [(hh : fl (f / 2) = f / 2)]
    rcases le_total r f with h | h
    · rw [min_eq_left h, max_eq_right h]
      constructor <;> linarith
    · rw [min_eq_right h, max_eq_left h]
      constructor <;> linarith
  · have hsmall : |f| < (2 : ℚ) ^ (-125 : ℤ) := by
      by_contra hn
      exact hh (isF32_half f hf (not_lt.mp hn))
    have ht : -|f| ≤ fl (f / 2) ∧ fl (f / 2) ≤ |f| := by
      rcases le_total 0 f with h0 | h0
      · rw [abs_of_nonneg h0]
        exact ⟨le_trans (by linarith) (fl_nonneg _ (by linarith)),
          fl_le_of_le _ f hf (by linarith)⟩
      · rw [abs_of_nonpos h0]
        exact ⟨by rw [neg_neg]; exact le_fl_of_le _ f hf (by linarith),
          le_trans (fl_le_of_le _ 0 isF32_zero (by linarith)) (by linarith)⟩
    have hδ : (2 : ℚ) ^ (-125 : ℤ) ≤ (2 : ℚ) ^ (-7 : ℤ) / 4 := by norm_num
    generalize (2 : ℚ) ^ (-125 : ℤ) = A at hsmall hδ
    generalize (2 : ℚ) ^ (-7 : ℤ) = B at hrb hδ
    have hf1 := neg_abs_le f
    have hf2 := le_abs_self f
    rcases hrb with hr0 | hr7
    · subst hr0
      rw [zero_div, zero_add]
      rcases le_total 0 f with h0 | h0
      · rw [min_eq_left h0, max_eq_right h0]
        exact ⟨fl_nonneg _ (by linarith), fl_le_of_le _ f hf (by linarith)⟩
      · rw [min_eq_right h0, max_eq_left h0]
        exact ⟨le_fl_of_le _ f hf (by linarith), fl_le_of_le _ 0 isF32_zero (by linarith)⟩
    · rcases le_total 0 r with h0 | h0
      · rw [abs_of_nonneg h0] at hr7
        have hle : f ≤ r := by linarith
        rw [min_eq_right hle, max_eq_left hle]
        constructor <;> linarith [ht.1, ht.2]
      · rw [abs_of_nonpos h0] at hr7
        have hle : r ≤ f := by linarith
        rw [min_eq_left hle, max_eq_right hle]
        constructor <;> linarith [ht.1, ht.2]

/-- One update does not move the estimate away from the reading. -/
theorem axis_distance_le (r f : ℚ) (hr : IsF32 r) (hrb : r = 0 ∨ (2 : ℚ) ^ (-7 : ℤ) ≤ |r|)
    (hf : IsF32 f) : |fl (r / 2 + fl (f / 2)) - r| ≤ |f - r| := by
  obtain ⟨h1, h2⟩ := axis_sum_between r f hrb hf
  rcases le_total r f with h | h
  · rw [min_eq_left h] at h1
    rw [max_eq_right h] at h2
    have h3 := le_fl_of_le _ r hr h1
    have h4 := fl_le_of_le _ f hf h2
    rw [abs_of_nonneg (by linarith), abs_of_nonneg (by linarith)]
    linarith
  · rw [min_eq_right h] at h1
    rw [max_eq_left h] at h2
    have h3 := le_fl_of_le _ f hf h1
    have h4 := fl_le_of_le _ r hr h2
    rw [abs_of_nonpos (by linarith), abs_of_nonpos (by linarith)]
    linarith

/-- A scaled reading is 0 or at least `2 ^ -7` in magnitude. -/
theorem scaledReading_zero_or_ge (a : Fin 3 → ℤ) (i : Fin 3) :
    scaledReading a i = 0 ∨ (2 : ℚ) ^ (-7 : ℤ) ≤ |scaledReading a i| := by
  unfold scaledReading
  by_cases h : a i = 0
  · left
    rw [h]
    simp
  · right
    have h1 : (1 : ℤ) ≤ |a i| := Int.one_le_abs h
    have h2 : (1 : ℚ) ≤ |(a i : ℚ)| := by
      rw [← Int.cast_abs]
      exact_mod_cast h1
    rw [abs_mul, abs_of_pos (by norm_num : (0 : ℚ) < 78125 / 10000000)]
    have h3 : (2 : ℚ) ^ (-7 : ℤ) = 78125 / 10000000 := by norm_num
    rw [h3]
    nlinarith

/-- Under a constant reading of at most 24 bits the estimate stays a binary32
value. -/
theorem isF32_filterAfter (st : FilterState) (a : Fin 3 → ℤ) (i : Fin 3) (n : Nat)
    (ha : |a i| < 2 ^ 24) (hst : IsF32 (st.filtered i)) :
    IsF32 ((filterAfter st a n).filtered i) := by
  cases n with
  | zero => exact hst
  | succ m =>
    show IsF32 ((getAccelerometerChange (filterAfter st a m) a).2.filtered i)
    rw [getAccelerometerChange_filtered _ a i ha]
    exact isF32_fl _

/-- The tie `2 ^ -7 - 2 ^ -32` rounds up to `2 ^ -7`. -/
theorem fl_tie_below_resolution : fl (33554431 / 4294967296) = 1 / 128 := by
  have h := fl_eq_of_bounds (33554431 / 4294967296) (-8) 16777216 (by norm_num [abs_of_pos])
    (by norm_num [abs_of_pos]) (by decide) (by
      have hx : (33554431 / 4294967296 : ℚ) / (2 : ℚ) ^ ((-8 : ℤ) - 23) =
          ((16777215 : ℤ) : ℚ) + 1 / 2 := by norm_num
      rw [hx]
      exact roundNE_tie_up 16777215 (by decide))
  rw [h]
  norm_num

/-- The estimates reached from power-on under raw reading 1 are dyadic. -/
theorem unit_estimate_dyadic (n : ℕ) :
    (1 - (1 / 2 : ℚ) ^ n) / 128 = (((2 : ℤ) ^ n - 1 : ℤ) : ℚ) * (2 : ℚ) ^ (-7 - (n : ℤ)) := by
  have h2 : (2 : ℚ) ^ (-7 - (n : ℤ)) = (1 / 128) * (1 / 2) ^ n := by
    rw [zpow_sub₀ (by norm_num : (2 : ℚ) ≠ 0), zpow_natCast]
    have h7 : (2 : ℚ) ^ (-7 : ℤ) = 1 / 128 := by norm_num
    rw [h7, one_div_pow]
    field_simp
  have h1 : (2 : ℚ) ^ n * (1 / 2) ^ n = 1 := by
    rw [← mul_pow]
    norm_num
  rw [h2]
  push_cast
  linear_combination (-(1 / 128 : ℚ)) * h1

theorem unit_mantissa_lt (n : ℕ) (hn : n ≤ 24) : |((2 : ℤ) ^ n - 1 : ℤ)| < 2 ^ 24 := by
  have h1 : (1 : ℤ) ≤ 2 ^ n := one_le_pow₀ (by norm_num)
  have h2 : (2 : ℤ) ^ n ≤ 2 ^ 24 := pow_le_pow_right₀ (by norm_num) hn
  rw [abs_of_nonneg (by omega)]
  omega

/-- For `n ≤ 24` the value `(1 - 2 ^ -n) / 128` and its half are binary32
values. -/
theorem isF32_unit_estimate (n : ℕ) (hn : n ≤ 24) :
    IsF32 ((1 - (1 / 2 : ℚ) ^ n) / 128) ∧ IsF32 ((1 - (1 / 2 : ℚ) ^ n) / 128 / 2) := by
  constructor
  · exact isF32_of_eq_dyadic _ _ _ (unit_mantissa_lt n hn) (by omega) (unit_estimate_dyadic n)
  · refine isF32_of_eq_dyadic _ ((2 : ℤ) ^ n - 1) (-7 - (n : ℤ) - 1) (unit_mantissa_lt n hn)
      (by omega) ?_
    rw [unit_estimate_dyadic n, zpow_sub₀ (by norm_num : (2 : ℚ) ≠ 0) (-7 - (n : ℤ)) 1]
    norm_num
    ring

/-- An axis with raw reading 0 and estimate 0 keeps estimate 0. -/
theorem getAccelerometerChange_filtered_zero (st : FilterState) (a : Fin 3 → ℤ) (i : Fin 3)
    (ha : a i = 0) (hf : st.filtered i = 0) :
    (getAccelerometerChange st a).2.filtered i = 0 := by
  rw [getAccelerometerChange_filtered st a i (by rw [ha]; decide), hf]
  unfold scaledReading
  rw [ha]
  norm_num [fl_zero]

/-- From power-on under the constant raw reading `(1, 0, 0)`, the first 24
calls are exact: after `n` of them the estimate is `((1 - 2 ^ -n) / 128, 0, 0)`
and the baseline equals it. -/
theorem filterAfter_unit_reading (n : ℕ) (hn : n ≤ 24) :
    (filterAfter initFilter ![1, 0, 0] n).filtered 0 = (1 - (1 / 2 : ℚ) ^ n) / 128 ∧
    (filterAfter initFilter ![1, 0, 0] n).filtered 1 = 0 ∧
    (filterAfter initFilter ![1, 0, 0] n).filtered 2 = 0 ∧
    (∀ i, (filterAfter initFilter ![1, 0, 0] n).prevFiltered i =
      (filterAfter initFilter ![1, 0, 0] n).filtered i) := by
  induction n with
  | zero =>
    refine ⟨?_, rfl, rfl, fun _ => rfl⟩
    show (0 : ℚ) = (1 - (1 / 2 : ℚ) ^ 0) / 128
    norm_num
  | succ m ih =>
    obtain ⟨h0, h1, h2, _⟩ := ih (by omega)
    refine ⟨?_, ?_, ?_, ?_⟩
    · show (getAccelerometerChange (filterAfter initFilter ![1, 0, 0] m) ![1, 0, 0]).2.filtered 0 = _
      rw [getAccelerometerChange_filtered _ _ 0 (by decide), h0,
        ((isF32_unit_estimate m (by omega)).2 : fl _ = _)]
      have hs : scaledReading ![1, 0, 0] 0 / 2 + (1 - (1 / 2 : ℚ) ^ m) / 128 / 2 =
          (1 - (1 / 2 : ℚ) ^ (m + 1)) / 128 := by
        have : scaledReading ![1, 0, 0] 0 = 1 / 128 := by norm_num [scaledReading]
        rw [this, pow_succ]
        ring
      rw [hs]
      exact (isF32_unit_estimate (m + 1) hn).1
    · exact getAccelerometerChange_filtered_zero _ _ 1 rfl h1
    · exact getAccelerometerChange_filtered_zero _ _ 2 rfl h2
    · exact getAccelerometerChange_prev _ _

/-- The estimate on the first axis after 23 and after 24 calls, as fractions. -/
theorem unit_estimate_values :
    (1 - (1 / 2 : ℚ) ^ 23) / 128 = 8388607 / 1073741824 ∧
    (1 - (1 / 2 : ℚ) ^ 24) / 128 = 16777215 / 2147483648 := by
  constructor <;> norm_num

/-- Call 25 from power-on under raw reading `(1, 0, 0)` rounds the estimate on
the first axis up to `1/128`. -/
theorem filtered_call_25 :
    (getAccelerometerChange (filterAfter initFilter ![1, 0, 0] 24) ![1, 0, 0]).2.filtered 0 =
      1 / 128 := by
  obtain ⟨h0, _, _, _⟩ := filterAfter_unit_reading 24 (le_refl 24)
  rw [getAccelerometerChange_filtered _ _ 0 (by decide), h0,
    ((isF32_unit_estimate 24 (le_refl 24)).2 : fl _ = _)]
  have hs : scaledReading ![1, 0, 0] 0 / 2 + (1 - (1 / 2 : ℚ) ^ 24) / 128 / 2 =
      33554431 / 4294967296 := by
    norm_num [scaledReading]
  rw [hs]
  exact fl_tie_below_resolution

/-- C4 (as stated, refuted): after 24 calls from power-on with raw reading
`(1, 0, 0)` the estimate on the first axis is `2 ^ -7 - 2 ^ -31`; call 25 makes
it `2 ^ -7 = 1/128`, not `0.5 * 1 * 0.0078125 + 0.5 * filtered`, which is
`2 ^ -7 - 2 ^ -32`: the sum is rounded to binary32. -/
theorem filter_update_exact_counterexample :
    (filterAfter initFilter ![1, 0, 0] 24).filtered 0 = 16777215 / 2147483648 ∧
    (getAccelerometerChange (filterAfter initFilter ![1, 0, 0] 24) ![1, 0, 0]).2.filtered 0 =
      1 / 128 ∧
    (1 / 2 : ℚ) * (((1 : ℤ) : ℚ) * (78125 / 10000000)) +
      (1 / 2) * (filterAfter initFilter ![1, 0, 0] 24).filtered 0 = 33554431 / 4294967296 := by
  have h0 : (filterAfter initFilter ![1, 0, 0] 24).filtered 0 = 16777215 / 2147483648 := by
    rw [(filterAfter_unit_reading 24 (le_refl 24)).1]
    exact unit_estimate_values.2
  refine ⟨h0, filtered_call_25, ?_⟩
  rw [h0]
  norm_num

/-- C4 (amended): for a raw reading of at most 24 bits and an estimate that is
a binary32 value, a call updates the estimate on each axis as
`filtered := fl (0.5 * reading * 0.0078125 + fl (0.5 * filtered))` with `fl` the
rounding to binary32, which is `0.5 * reading * 0.0078125 + 0.5 * filtered`
whenever these values are representable; under a reading held constant over
successive calls the distance between the estimate and the scaled reading does
not increase from one call to the next. -/
theorem filter_converges_monotonically (st : FilterState) (a : Fin 3 → ℤ) (i : Fin 3)
    (n : Nat) (ha : |a i| < 2 ^ 24) (hst : IsF32 (st.filtered i)) :
    (getAccelerometerChange st a).2.filtered i =
      fl ((1 / 2) * ((a i : ℚ) * (78125 / 10000000)) + fl ((1 / 2) * st.filtered i)) ∧
    (IsF32 ((1 / 2) * st.filtered i) →
      IsF32 ((1 / 2) * ((a i : ℚ) * (78125 / 10000000)) + (1 / 2) * st.filtered i) →
      (getAccelerometerChange st a).2.filtered i =
        (1 / 2) * ((a i : ℚ) * (78125 / 10000000)) + (1 / 2) * st.filtered i) ∧
    scaledReading a i = (a i : ℚ) * (78125 / 10000000) ∧
    |(filterAfter st a (n + 1)).filtered i - scaledReading a i| ≤
      |(filterAfter st a n).filtered i - scaledReading a i| := by
  have hupd : (getAccelerometerChange st a).2.filtered i =
      fl ((1 / 2) * ((a i : ℚ) * (78125 / 10000000)) + fl ((1 / 2) * st.filtered i)) := by
    rw [getAccelerometerChange_filtered st a i ha]
    unfold scaledReading
    have h1 : (a i : ℚ) * (78125 / 10000000) / 2 = (1 / 2) * ((a i : ℚ) * (78125 / 10000000)) := by
      ring
    have h2 : st.filtered i / 2 = (1 / 2) * st.filtered i := by ring
    rw [h1, h2]
  refine ⟨hupd, ?_, rfl, ?_⟩
  · intro h1 h2
    rw [hupd, (h1 : fl _ = _), (h2 : fl _ = _)]
  · show |(getAccelerometerChange (filterAfter st a n) a).2.filtered i - scaledReading a i| ≤ _
    rw [getAccelerometerChange_filtered _ a i ha]
    exact axis_distance_le (scaledReading a i) _ (isF32_scaled (a i) ha)
      (scaledReading_zero_or_ge a i) (isF32_filterAfter st a i n ha hst)

/-- C4 (amended), from power-on with raw reading 1 on the first axis. -/
theorem filter_converges_monotonically_witness :
    (getAccelerometerChange initFilter ![1, 0, 0]).2.filtered 0 =
      fl ((1 / 2) * ((((![1, 0, 0] : Fin 3 → ℤ) 0 : ℤ) : ℚ) * (78125 / 10000000)) +
        fl ((1 / 2) * initFilter.filtered 0)) ∧
    (IsF32 ((1 / 2) * initFilter.filtered 0) →
      IsF32 ((1 / 2) * ((((![1, 0, 0] : Fin 3 → ℤ) 0 : ℤ) : ℚ) * (78125 / 10000000)) +
        (1 / 2) * initFilter.filtered 0) →
      (getAccelerometerChange initFilter ![1, 0, 0]).2.filtered 0 =
        (1 / 2) * ((((![1, 0, 0] : Fin 3 → ℤ) 0 : ℤ) : ℚ) * (78125 / 10000000)) +
          (1 / 2) * initFilter.filtered 0) ∧
    scaledReading ![1, 0, 0] 0 =
      (((![1, 0, 0] : Fin 3 → ℤ) 0 : ℤ) : ℚ) * (78125 / 10000000) ∧
    |(filterAfter initFilter ![1, 0, 0] (0 + 1)).filtered 0 - scaledReading ![1, 0, 0] 0| ≤
      |(filterAfter initFilter ![1, 0, 0] 0).filtered 0 - scaledReading ![1, 0, 0] 0| :=
  filter_converges_monotonically initFilter ![1, 0, 0] 0 0 (by decide) isF32_zero

theorem isF32_neg (q : ℚ) (h : IsF32 q) : IsF32 (-q) := by
  obtain ⟨M, hM, hq⟩ := isF32_mantissa q h
  have hge := f32Exp_ge q
  refine isF32_of_eq_dyadic (-q) (-M) (f32Exp q - 23) (by rw [abs_neg]; exact hM) (by omega) ?_
  push_cast
  rw [neg_mul, ← hq]

theorem isF32_abs (q : ℚ) (h : IsF32 q) : IsF32 |q| := by
  rcases abs_choice q with h1 | h1
  · rw [h1]
    exact h
  · rw [h1]
    exact isF32_neg q h

/-- The returned total is not negative. -/
theorem getAccelerometerChange_nonneg (st : FilterState) (a : Fin 3 → ℤ) :
    0 ≤ (getAccelerometerChange st a).1 := by
  rw [getAccelerometerChange_total]
  apply fl_nonneg
  apply add_nonneg _ (abs_nonneg _)
  apply fl_nonneg
  apply add_nonneg _ (abs_nonneg _)
  apply fl_nonneg
  exact add_nonneg (le_refl 0) (abs_nonneg _)

/-- The returned total is the exact sum of the three absolute differences when
no difference and no partial sum rounds. -/
theorem getAccelerometerChange_total_exact (st : FilterState) (a : Fin 3 → ℤ)
    (hd : ∀ i, IsF32 (st.prevFiltered i - (getAccelerometerChange st a).2.filtered i))
    (h01 : IsF32 (|st.prevFiltered 0 - (getAccelerometerChange st a).2.filtered 0| +
      |st.prevFiltered 1 - (getAccelerometerChange st a).2.filtered 1|))
    (h012 : IsF32 (|st.prevFiltered 0 - (getAccelerometerChange st a).2.filtered 0| +
      |st.prevFiltered 1 - (getAccelerometerChange st a).2.filtered 1| +
      |st.prevFiltered 2 - (getAccelerometerChange st a).2.filtered 2|)) :
    (getAccelerometerChange st a).1 =
      ∑ i : Fin 3, |st.prevFiltered i - (getAccelerometerChange st a).2.filtered i| := by
  rw [getAccelerometerChange_total, Fin.sum_univ_three, (hd 0 : fl _ = _), (hd 1 : fl _ = _),
    (hd 2 : fl _ = _), zero_add, (isF32_abs _ (hd 0) : fl _ = _), (h01 : fl _ = _),
    (h012 : fl _ = _)]

/-- The sum `1/2 + 2 ^ -28` rounds to `1/2`. -/
theorem fl_half_plus_tiny : fl (134217729 / 268435456) = 1 / 2 := by
  have h := fl_eq_of_bounds (134217729 / 268435456) (-1) 8388608 (by norm_num [abs_of_pos])
    (by norm_num [abs_of_pos]) (by decide) (by
      apply roundNE_eq_of_near <;> norm_num)
  rw [h]
  norm_num

/-- The state and reading of the rounding example: the estimate on the second
axis is `2 ^ -7 - 2 ^ -27`, the raw reading is `(128, 1, 0)`. The new estimates
are `1/2`, `2 ^ -7 - 2 ^ -28` and 0. -/
theorem rounding_example_filtered :
    (getAccelerometerChange
      ⟨![0, 1048575 / 134217728, 0], ![0, 1048575 / 134217728, 0]⟩
      ![128, 1, 0]).2.filtered 0 = 1 / 2 ∧
    (getAccelerometerChange
      ⟨![0, 1048575 / 134217728, 0], ![0, 1048575 / 134217728, 0]⟩
      ![128, 1, 0]).2.filtered 1 = 2097151 / 268435456 ∧
    (getAccelerometerChange
      ⟨![0, 1048575 / 134217728, 0], ![0, 1048575 / 134217728, 0]⟩
      ![128, 1, 0]).2.filtered 2 = 0 := by
  refine ⟨?_, ?_, ?_⟩
  · rw [getAccelerometerChange_filtered _ _ 0 (by decide)]
    show fl (scaledReading ![128, 1, 0] 0 / 2 + fl ((0 : ℚ) / 2)) = 1 / 2
    have hs : scaledReading ![128, 1, 0] 0 / 2 + fl ((0 : ℚ) / 2) = 1 / 2 := by
      rw [zero_div, fl_zero]
      norm_num [scaledReading]
    rw [hs]
    exact fl_half
  · rw [getAccelerometerChange_filtered _ _ 1 (by decide)]
    show fl (scaledReading ![128, 1, 0] 1 / 2 + fl ((1048575 / 134217728 : ℚ) / 2)) =
      2097151 / 268435456
    have hhalf : IsF32 ((1048575 / 134217728 : ℚ) / 2) :=
      isF32_of_eq_dyadic _ 1048575 (-28) (by decide) (by decide) (by norm_num)
    have hs : scaledReading ![128, 1, 0] 1 / 2 + (1048575 / 134217728 : ℚ) / 2 =
        2097151 / 268435456 := by
      norm_num [scaledReading]
    rw [(hhalf : fl _ = _), hs]
    exact isF32_of_eq_dyadic _ 2097151 (-28) (by decide) (by decide) (by norm_num)
  · rw [getAccelerometerChange_filtered _ _ 2 (by decide)]
    show fl (scaledReading ![128, 1, 0] 2 / 2 + fl ((0 : ℚ) / 2)) = 0
    have hs : scaledReading ![128, 1, 0] 2 / 2 + fl ((0 : ℚ) / 2) = 0 := by
      rw [zero_div, fl_zero]
      norm_num [scaledReading]
    rw [hs]
    exact fl_zero

/-- C5 (as stated, refuted): with estimate and baseline `(0, 2^-7 - 2^-27, 0)`
and raw reading `(128, 1, 0)` the routine returns `1/2`, while the sum over the
axes of `|prevFiltered[i] - filtered[i]|` is `1/2 + 2^-28`: the running total is
rounded to binary32 after each addition. -/
theorem metric_exact_sum_counterexample :
    (getAccelerometerChange
      ⟨![0, 1048575 / 134217728, 0], ![0, 1048575 / 134217728, 0]⟩
      ![128, 1, 0]).1 = 1 / 2 ∧
    ∑ i : Fin 3, |(![0, 1048575 / 134217728, 0] : Fin 3 → ℚ) i -
      (getAccelerometerChange
        ⟨![0, 1048575 / 134217728, 0], ![0, 1048575 / 134217728, 0]⟩
        ![128, 1, 0]).2.filtered i| = 134217729 / 268435456 := by
  obtain ⟨h0, h1, h2⟩ := rounding_example_filtered
  have a0 : |(0 : ℚ) - 1 / 2| = 1 / 2 := by
    rw [abs_of_neg (by norm_num)]
    norm_num
  have a1 : |(1048575 / 134217728 : ℚ) - 2097151 / 268435456| = 1 / 268435456 := by
    rw [abs_of_neg (by norm_num)]
    norm_num
  have a2 : |(0 : ℚ) - 0| = 0 := by norm_num
  constructor
  · rw [getAccelerometerChange_total, h0, h1, h2]
    show fl (fl (fl (0 + |fl ((0 : ℚ) - 1 / 2)|) +
      |fl ((1048575 / 134217728 : ℚ) - 2097151 / 268435456)|) + |fl ((0 : ℚ) - 0)|) = 1 / 2
    have e0 : IsF32 ((0 : ℚ) - 1 / 2) :=
      isF32_of_eq_dyadic _ (-1) (-1) (by decide) (by decide) (by norm_num)
    have e1 : IsF32 ((1048575 / 134217728 : ℚ) - 2097151 / 268435456) :=
      isF32_of_eq_dyadic _ (-1) (-28) (by decide) (by decide) (by norm_num)
    have e2 : IsF32 ((0 : ℚ) - 0) := by
      rw [sub_zero]
      exact isF32_zero
    rw [(e0 : fl _ = _), (e1 : fl _ = _), (e2 : fl _ = _), a0, a1, a2, zero_add, fl_half]
    have hs : (1 / 2 : ℚ) + 1 / 268435456 = 134217729 / 268435456 := by norm_num
    rw [hs, fl_half_plus_tiny, add_zero, fl_half]
  · rw [Fin.sum_univ_three, h0, h1, h2]
    show |(0 : ℚ) - 1 / 2| + |(1048575 / 134217728 : ℚ) - 2097151 / 268435456| +
      |(0 : ℚ) - 0| = 134217729 / 268435456
    rw [a0, a1, a2]
    norm_num

/-- C5 (amended): for raw readings of at most 24 bits the call stores on each
axis the new estimate `fl (reading / 2 + fl (filtered / 2))` and returns the
running sum over the three axes of `|fl (prevFiltered[i] - filtered[i])|` taken
with the new estimate and rounded to binary32 after each addition; this is the
exact sum of `|prevFiltered[i] - filtered[i]|` whenever no difference and no
partial sum rounds; the returned value is not negative, and after the call
`prevFiltered` equals `filtered` on every axis. -/
theorem accelerometer_change_is_rounded_sum (st : FilterState) (a : Fin 3 → ℤ)
    (ha : ∀ i, |a i| < 2 ^ 24) :
    (∀ i : Fin 3, (getAccelerometerChange st a).2.filtered i =
      fl (scaledReading a i / 2 + fl (st.filtered i / 2))) ∧
    (getAccelerometerChange st a).1 =
      fl (fl (fl (0 + |fl (st.prevFiltered 0 - (getAccelerometerChange st a).2.filtered 0)|) +
        |fl (st.prevFiltered 1 - (getAccelerometerChange st a).2.filtered 1)|) +
        |fl (st.prevFiltered 2 - (getAccelerometerChange st a).2.filtered 2)|) ∧
    ((∀ i, IsF32 (st.prevFiltered i - (getAccelerometerChange st a).2.filtered i)) →
      IsF32 (|st.prevFiltered 0 - (getAccelerometerChange st a).2.filtered 0| +
        |st.prevFiltered 1 - (getAccelerometerChange st a).2.filtered 1|) →
      IsF32 (|st.prevFiltered 0 - (getAccelerometerChange st a).2.filtered 0| +
        |st.prevFiltered 1 - (getAccelerometerChange st a).2.filtered 1| +
        |st.prevFiltered 2 - (getAccelerometerChange st a).2.filtered 2|) →
      (getAccelerometerChange st a).1 =
        ∑ i : Fin 3, |st.prevFiltered i - (getAccelerometerChange st a).2.filtered i|) ∧
    0 ≤ (getAccelerometerChange st a).1 ∧
    (∀ i : Fin 3, (getAccelerometerChange st a).2.prevFiltered i =
      (getAccelerometerChange st a).2.filtered i) :=
  ⟨fun i => getAccelerometerChange_filtered st a i (ha i),
    getAccelerometerChange_total st a,
    getAccelerometerChange_total_exact st a,
    getAccelerometerChange_nonneg st a,
    getAccelerometerChange_prev st a⟩

/-! ## Helper lemmas: the heading -/

theorem atan2_range (y x : ℝ) : -Real.pi < atan2 y x ∧ atan2 y x ≤ Real.pi :=
  ⟨Complex.neg_pi_lt_arg _, Complex.arg_le_pi _⟩

theorem atan2_origin : atan2 0 0 = 0 := by
  unfold atan2
  have h : (⟨0, 0⟩ : ℂ) = 0 := rfl
  rw [h, Complex.arg_zero]

/-- After the sign correction the angle lies in `[0, 2 pi)`. -/
theorem headingSigned_range (a : Fin 3 → ℤ) :
    0 ≤ headingSigned a ∧ headingSigned a < 2 * Real.pi := by
  unfold headingSigned
  have hr := atan2_range (scaleGain (a 1) : ℝ) (scaleGain (a 0) : ℝ)
  have hpi := Real.pi_pos
  simp only []
  split_ifs with h
  · constructor <;> linarith [hr.1, hr.2]
  · constructor <;> linarith [hr.1, hr.2]

theorem scaleGain_small (n : ℤ) (h1 : -1 ≤ n) (h2 : n ≤ 1) : scaleGain n = 0 := by
  have h : n = -1 ∨ n = 0 ∨ n = 1 := by omega
  rcases h with h | h | h
  · subst h
    have hneg : ¬ (0 : ℚ) ≤ ((-1 : ℤ) : ℚ) * (92 / 100) := by norm_num
    unfold scaleGain truncQ
    rw [if_neg hneg, Int.ceil_eq_iff]
    norm_num
  · subst h
    unfold scaleGain truncQ
    norm_num
  · subst h
    have hpos : (0 : ℚ) ≤ ((1 : ℤ) : ℚ) * (92 / 100) := by norm_num
    unfold scaleGain truncQ
    rw [if_pos hpos, Int.floor_eq_iff]
    norm_num

/-- A raw sample whose x and y are both in `{-1, 0, 1}` is scaled to the origin
and yields heading 0. -/
theorem heading_of_small_sample (a : Fin 3 → ℤ) (hx : -1 ≤ a 0 ∧ a 0 ≤ 1)
    (hy : -1 ≤ a 1 ∧ a 1 ≤ 1) : getMagnetometerHeading a = 0 := by
  have hs : headingSigned a = 0 := by
    unfold headingSigned
    rw [scaleGain_small (a 0) hx.1 hx.2, scaleGain_small (a 1) hy.1 hy.2]
    simp [atan2_origin]
  unfold getMagnetometerHeading
  have hpi := Real.pi_pos
  simp only [hs]
  rw [if_neg (by linarith)]
  simp

theorem scaleGain_hundred : scaleGain 100 = 92 ∧ scaleGain (-100) = -92 ∧ scaleGain 0 = 0 := by
  refine ⟨?_, ?_, ?_⟩
  · have hpos : (0 : ℚ) ≤ ((100 : ℤ) : ℚ) * (92 / 100) := by norm_num
    unfold scaleGain truncQ
    rw [if_pos hpos, Int.floor_eq_iff]
    norm_num
  · have hneg : ¬ (0 : ℚ) ≤ ((-100 : ℤ) : ℚ) * (92 / 100) := by norm_num
    unfold scaleGain truncQ
    rw [if_neg hneg, Int.ceil_eq_iff]
    norm_num
  · exact scaleGain_small 0 (by decide) (by decide)

theorem atan2_axes :
    atan2 0 92 = 0 ∧ atan2 92 0 = Real.pi / 2 ∧ atan2 0 (-92) = Real.pi ∧
    atan2 (-92) 0 = -(Real.pi / 2) := by
  unfold atan2
  refine ⟨?_, ?_, ?_, ?_⟩
  · have h : (⟨92, 0⟩ : ℂ) = ((92 : ℝ) : ℂ) := by apply Complex.ext <;> simp
    rw [h, Complex.arg_ofReal_of_nonneg (by norm_num)]
  · have h : (⟨0, 92⟩ : ℂ) = ((92 : ℝ) : ℂ) * Complex.I := by apply Complex.ext <;> simp
    rw [h, Complex.arg_real_mul _ (by norm_num), Complex.arg_I]
  · have h : (⟨-92, 0⟩ : ℂ) = ((-92 : ℝ) : ℂ) := by apply Complex.ext <;> simp
    rw [h, Complex.arg_ofReal_of_neg (by norm_num)]
  · have h : (⟨0, -92⟩ : ℂ) = ((92 : ℝ) : ℂ) * (-Complex.I) := by apply Complex.ext <;> simp
    rw [h, Complex.arg_real_mul _ (by norm_num), Complex.arg_neg_I]

/-- Raw samples of magnitude 100 along the four axes give 0, 90, 180 and 270. -/
theorem heading_of_axis_samples_hundred (z : ℤ) :
    getMagnetometerHeading ![100, 0, z] = 0 ∧
    getMagnetometerHeading ![0, 100, z] = 90 ∧
    getMagnetometerHeading ![-100, 0, z] = 180 ∧
    getMagnetometerHeading ![0, -100, z] = 270 := by
  obtain ⟨hp, hm, h0⟩ := scaleGain_hundred
  obtain ⟨a1, a2, a3, a4⟩ := atan2_axes
  have hpi := Real.pi_pos
  have hne : Real.pi ≠ 0 := hpi.ne'
  refine ⟨?_, ?_, ?_, ?_⟩
  · have hs : headingSigned ![100, 0, z] = 0 := by
      unfold headingSigned
      simp [hp, h0, a1]
    unfold getMagnetometerHeading
    simp only [hs]
    rw [if_neg (by linarith)]
    simp
  · have hs : headingSigned ![0, 100, z] = Real.pi / 2 := by
      unfold headingSigned
      simp only [Matrix.cons_val_zero, Matrix.cons_val_one, Matrix.head_cons, hp, h0]
      push_cast
      rw [a2, if_neg (by linarith)]
    unfold getMagnetometerHeading
    simp only [hs]
    rw [if_neg (by linarith)]
    field_simp
    ring
  · have hs : headingSigned ![-100, 0, z] = Real.pi := by
      unfold headingSigned
      simp only [Matrix.cons_val_zero, Matrix.cons_val_one, Matrix.head_cons, hm, h0]
      push_cast
      rw [a3, if_neg (by linarith)]
    unfold getMagnetometerHeading
    simp only [hs]
    rw [if_neg (by linarith)]
    field_simp
  · have hs : headingSigned ![0, -100, z] = 3 * Real.pi / 2 := by
      unfold headingSigned
      simp only [Matrix.cons_val_zero, Matrix.cons_val_one, Matrix.head_cons, hm, h0]
      push_cast
      rw [a4, if_pos (by linarith)]
      ring
    unfold getMagnetometerHeading
    simp only [hs]
    rw [if_neg (by linarith)]
    field_simp
    ring

/-- C6 (the code at the claim's sample points): for the raw samples `(1,0)`,
`(0,1)`, `(-1,0)` and `(0,-1)` the routine returns 0 each time, where the claim
says 0, 90, 180 and 270: the in-place scaling by 0.92 on `int` truncates each of
them to the origin. At magnitude 100 the same four directions do give 0, 90,
180 and 270. -/
theorem heading_axis_samples (z : ℤ) :
    (getMagnetometerHeading ![1, 0, z] = 0 ∧
     getMagnetometerHeading ![0, 1, z] = 0 ∧
     getMagnetometerHeading ![-1, 0, z] = 0 ∧
     getMagnetometerHeading ![0, -1, z] = 0) ∧
    (getMagnetometerHeading ![100, 0, z] = 0 ∧
     getMagnetometerHeading ![0, 100, z] = 90 ∧
     getMagnetometerHeading ![-100, 0, z] = 180 ∧
     getMagnetometerHeading ![0, -100, z] = 270) := by
  refine ⟨⟨?_, ?_, ?_, ?_⟩, heading_of_axis_samples_hundred z⟩ <;>
    exact heading_of_small_sample _ (by simp) (by simp)

/-- C7: for every raw magnetometer sample the returned heading, computed over
the reals, lies in `[0, 360)`, and the guard `heading > 2 * PI` of the wrap
branch never holds. -/
theorem heading_in_range_no_wrap (a : Fin 3 → ℤ) :
    0 ≤ getMagnetometerHeading a ∧ getMagnetometerHeading a < 360 ∧
    ¬ wrapBranchTaken a := by
  have hr := headingSigned_range a
  have hpi := Real.pi_pos
  have hnw : ¬ headingSigned a > 2 * Real.pi := by linarith [hr.2]
  refine ⟨?_, ?_, hnw⟩
  · unfold getMagnetometerHeading
    simp only [if_neg hnw]
    apply div_nonneg _ hpi.le
    linarith [hr.1]
  · unfold getMagnetometerHeading
    simp only [if_neg hnw]
    rw [div_lt_iff₀ hpi]
    linarith [hr.2]

/-! ## Helper lemmas: ignition -/

theorem toByte_natCast (n : Nat) : toByte (n : ℤ) = n % 256 := by
  unfold toByte
  omega

theorem toByte_add_natCast (m n : Nat) : toByte ((m : ℤ) + (n : ℤ)) = (m + n) % 256 := by
  unfold toByte
  omega

/-- A pass of the ignition loop leaves every pixel but the drawn one untouched. -/
theorem ignitePixel_other (color : Nat) (px : PixelField) (d : Nat × Nat)
    (i : Fin LED_COUNT) (h : toByte (d.1 : ℤ) ≠ i.val) : ignitePixel color px d i = px i := by
  unfold ignitePixel
  split_ifs with hlt
  · apply Function.update_noteq
    intro he
    apply h
    rw [he]
  · rfl

/-- A pass of the ignition loop stores brightness 255 and the offset colour in
the drawn pixel. -/
theorem ignitePixel_hit (color : Nat) (px : PixelField) (d : Nat × Nat)
    (i : Fin LED_COUNT) (h : toByte (d.1 : ℤ) = i.val) :
    ignitePixel color px d i = ⟨255, toByte ((d.2 : ℤ) + (color : ℤ))⟩ := by
  unfold ignitePixel
  have hlt : toByte (d.1 : ℤ) < LED_COUNT := by rw [h]; exact i.isLt
  rw [dif_pos hlt]
  have he : (⟨toByte (d.1 : ℤ), hlt⟩ : Fin LED_COUNT) = i := Fin.ext h
  rw [he, Function.update_same]

/-- Pixels that no draw of the list selects are what they were. -/
theorem foldl_ignitePixel_miss (color : Nat) (ds : List (Nat × Nat)) (px : PixelField)
    (i : Fin LED_COUNT) (h : ∀ d ∈ ds, toByte (d.1 : ℤ) ≠ i.val) :
    ds.foldl (ignitePixel color) px i = px i := by
  induction ds generalizing px with
  | nil => rfl
  | cons d rest ih =>
    rw [List.foldl_cons, ih _ (fun e he => h e (List.mem_cons_of_mem _ he))]
    exact ignitePixel_other color px d i (h d (List.mem_cons_self _ _))

/-- A pixel that some draw of the list selects holds brightness 255 and the
colour of one of the draws that selected it. -/
theorem foldl_ignitePixel_hit (color : Nat) (ds : List (Nat × Nat)) (px : PixelField)
    (i : Fin LED_COUNT) (h : ∃ d ∈ ds, toByte (d.1 : ℤ) = i.val) :
    ∃ d ∈ ds, toByte (d.1 : ℤ) = i.val ∧
      ds.foldl (ignitePixel color) px i = ⟨255, toByte ((d.2 : ℤ) + (color : ℤ))⟩ := by
  induction ds generalizing px with
  | nil =>
    obtain ⟨d, hd, _⟩ := h
    exact absurd hd (List.not_mem_nil d)
  | cons d rest ih =>
    by_cases hr : ∃ e ∈ rest, toByte (e.1 : ℤ) = i.val
    · obtain ⟨e, he, hei, hval⟩ := ih (ignitePixel color px d) hr
      exact ⟨e, List.mem_cons_of_mem _ he, hei, hval⟩
    · have hmiss : ∀ e ∈ rest, toByte (e.1 : ℤ) ≠ i.val := fun e he hei => hr ⟨e, he, hei⟩
      obtain ⟨e, he, hei⟩ := h
      have hed : e = d := by
        rcases List.mem_cons.mp he with h1 | h1
        · exact h1
        · exact absurd hei (hmiss e h1)
      subst hed
      refine ⟨e, List.mem_cons_self _ _, hei, ?_⟩
      rw [List.foldl_cons, foldl_ignitePixel_miss color rest _ i hmiss]
      exact ignitePixel_hit color px e i hei

/-- The ignition loop is the fold of its pass over the 20 pairs of draws. -/
theorem ignite_eq_foldl (color : Nat) (draws : Nat → Nat × Nat) (px : PixelField) :
    ignite color draws px = ((List.range 20).map draws).foldl (ignitePixel color) px := by
  unfold ignite
  rw [List.foldl_map]

/-! ## Helper lemmas: one iteration of `loop()` -/

theorem isF32_one : IsF32 1 :=
  isF32_of_eq_dyadic 1 1 0 (by decide) (by decide) (by norm_num)

theorem isF32_255 : IsF32 255 :=
  isF32_of_eq_dyadic 255 255 0 (by decide) (by decide) (by norm_num)

/-- For a heading in `[0, 360)` the colour byte is the integer part of the
rounded product, a value of at most 255. -/
theorem sampledColor_of_due (s : LoopState) (inp : LoopInput)
    (hdue : sampleDue inp.now s.lastCheck = true)
    (hh0 : 0 ≤ inp.heading) (hh1 : inp.heading < 360) :
    sampledColor s inp = Int.toNat ⌊fl (fl (inp.heading / 360) * 255)⌋ ∧
    Int.toNat ⌊fl (fl (inp.heading / 360) * 255)⌋ ≤ 255 := by
  have hd0 : (0 : ℚ) ≤ inp.heading / 360 := by positivity
  have hd1 : inp.heading / 360 ≤ 1 := by
    rw [div_le_one (by norm_num)]
    exact hh1.le
  have hq0 : 0 ≤ fl (inp.heading / 360) := fl_nonneg _ hd0
  have hq1 : fl (inp.heading / 360) ≤ 1 := fl_le_of_le _ 1 isF32_one hd1
  have hp0 : 0 ≤ fl (fl (inp.heading / 360) * 255) := fl_nonneg _ (by positivity)
  have hp1 : fl (fl (inp.heading / 360) * 255) ≤ ((255 : ℤ) : ℚ) := by
    push_cast
    exact fl_le_of_le _ 255 isF32_255 (by linarith)
  have hf0 : 0 ≤ ⌊fl (fl (inp.heading / 360) * 255)⌋ := Int.floor_nonneg.mpr hp0
  have hf1 : ⌊fl (fl (inp.heading / 360) * 255)⌋ ≤ 255 := by
    have h := Int.floor_mono hp1
    rwa [Int.floor_intCast] at h
  constructor
  · unfold sampledColor truncQ
    rw [if_pos hdue, if_pos hp0]
    unfold toByte
    omega
  · omega

/-- When the sensors are sampled and the change exceeds both 0.25 and
`last_change`, the trigger fires and the ignition loop runs on the field. -/
theorem loopTrigger_of_fire (s : LoopState) (inp : LoopInput)
    (hdue : sampleDue inp.now s.lastCheck = true)
    (hc : inp.accChange > 1 / 4) (hl : inp.accChange > s.last_change) :
    loopFires s inp = true ∧
    (loopTrigger s inp).pixels = ignite (sampledColor s inp) inp.draws s.pixels ∧
    (loopTrigger s inp).last_change = inp.accChange := by
  have hch : sampledChange s inp = inp.accChange := by
    unfold sampledChange
    rw [if_pos hdue]
  have hfire : (triggerStep s.last_change inp.accChange).1 = true := by
    unfold triggerStep
    simp only [decide_eq_true_eq]
    exact ⟨hc, hl⟩
  refine ⟨?_, ?_, ?_⟩
  · unfold loopFires
    rw [hch]
    exact hfire
  · unfold loopTrigger
    simp only [hch, hfire, if_true]
  · unfold loopTrigger
    simp only [hch]
    unfold triggerStep
    have h1 : ¬ inp.accChange < 1 / 10 := by linarith
    simp only [decide_eq_true_eq, if_pos (And.intro hc hl), if_neg h1]

/-- The render loop on an ignited pixel emits it at 255 and stores 252. -/
theorem renderPixel_ignited (c : Nat) :
    renderPixel ⟨255, c⟩ = (Led.fromPalette c 255, ⟨252, c⟩) := by
  simp [renderPixel]

/-- The render loop on a dark pixel emits black and stores it unchanged. -/
theorem renderPixel_dark (c : Nat) : renderPixel ⟨0, c⟩ = (Led.black, ⟨0, c⟩) := by
  simp [renderPixel]

/-- What a firing iteration does to a field that was all zero: the pixels some
draw selects are ignited to 255, emitted at 255 and stored at 252 with the colour
of one of their draws; all others stay `{0, 0}` and are emitted black. -/
theorem loop_fire_from_dark (lastCheck : Nat) (l : ℚ) (inp : LoopInput)
    (hdue : sampleDue inp.now lastCheck = true)
    (hc : inp.accChange > 1 / 4) (hl : inp.accChange > l)
    (hd : ∀ k, k < 20 → (inp.draws k).1 < LED_COUNT) (i : Fin LED_COUNT) :
    ((∃ k, k < 20 ∧ (inp.draws k).1 = i.val) →
      ∃ k, k < 20 ∧ (inp.draws k).1 = i.val ∧
        (loopTrigger ⟨lastCheck, l, initPixels⟩ inp).pixels i =
          ⟨255, ((inp.draws k).2 + sampledColor ⟨lastCheck, l, initPixels⟩ inp) % 256⟩ ∧
        loopFrame ⟨lastCheck, l, initPixels⟩ inp i = Led.fromPalette
          (((inp.draws k).2 + sampledColor ⟨lastCheck, l, initPixels⟩ inp) % 256) 255 ∧
        (loop ⟨lastCheck, l, initPixels⟩ inp).pixels i =
          ⟨252, ((inp.draws k).2 + sampledColor ⟨lastCheck, l, initPixels⟩ inp) % 256⟩) ∧
    ((¬ ∃ k, k < 20 ∧ (inp.draws k).1 = i.val) →
      (loopTrigger ⟨lastCheck, l, initPixels⟩ inp).pixels i = ⟨0, 0⟩ ∧
      loopFrame ⟨lastCheck, l, initPixels⟩ inp i = Led.black ∧
      (loop ⟨lastCheck, l, initPixels⟩ inp).pixels i = ⟨0, 0⟩) := by
  obtain ⟨_, hpx, _⟩ := loopTrigger_of_fire ⟨lastCheck, l, initPixels⟩ inp hdue hc hl
  have hbyte : ∀ k, k < 20 → toByte ((inp.draws k).1 : ℤ) = (inp.draws k).1 := by
    intro k hk
    have := hd k hk
    rw [toByte_natCast]
    unfold LED_COUNT at this
    omega
  have hloop : (loop ⟨lastCheck, l, initPixels⟩ inp).pixels i =
      (renderPixel ((loopTrigger ⟨lastCheck, l, initPixels⟩ inp).pixels i)).2 := rfl
  have hframe : loopFrame ⟨lastCheck, l, initPixels⟩ inp i =
      (renderPixel ((loopTrigger ⟨lastCheck, l, initPixels⟩ inp).pixels i)).1 := rfl
  rw [hloop, hframe, hpx, ignite_eq_foldl]
  constructor
  · rintro ⟨k, hk, hki⟩
    have hex : ∃ d ∈ (List.range 20).map inp.draws, toByte (d.1 : ℤ) = i.val :=
      ⟨inp.draws k, List.mem_map.mpr ⟨k, List.mem_range.mpr hk, rfl⟩, by rw [hbyte k hk, hki]⟩
    obtain ⟨d, hdm, hdi, hval⟩ := foldl_ignitePixel_hit
      (sampledColor ⟨lastCheck, l, initPixels⟩ inp) _ initPixels i hex
    obtain ⟨j, hj, rfl⟩ := List.mem_map.mp hdm
    have hj20 : j < 20 := List.mem_range.mp hj
    rw [hbyte j hj20] at hdi
    rw [toByte_add_natCast] at hval
    refine ⟨j, hj20, hdi, hval, ?_, ?_⟩
    · rw [hval, renderPixel_ignited]
    · rw [hval, renderPixel_ignited]
  · intro hno
    have hmiss : ∀ d ∈ (List.range 20).map inp.draws, toByte (d.1 : ℤ) ≠ i.val := by
      intro d hdm hdi
      obtain ⟨j, hj, rfl⟩ := List.mem_map.mp hdm
      have hj20 : j < 20 := List.mem_range.mp hj
      rw [hbyte j hj20] at hdi
      exact hno ⟨j, hj20, hdi⟩
    have hval := foldl_ignitePixel_miss
      (sampledColor ⟨lastCheck, l, initPixels⟩ inp) _ initPixels i hmiss
    rw [hval]
    exact ⟨rfl, rfl, rfl⟩

/-- A sampled change of 0 on a dark field with `last_change = 0` changes nothing
but `lastCheck`. -/
theorem loop_zero_change_from_dark (lastCheck now : Nat) (h : ℚ) (d : Nat → Nat × Nat)
    (hdue : sampleDue now lastCheck = true) :
    loop ⟨lastCheck, 0, initPixels⟩ ⟨now, 0, h, d⟩ = ⟨now, 0, initPixels⟩ := by
  have hch : sampledChange ⟨lastCheck, 0, initPixels⟩ ⟨now, 0, h, d⟩ = 0 := by
    unfold sampledChange
    simp
  have ht : triggerStep 0 0 = (false, 0) := by
    unfold triggerStep
    norm_num
  unfold loop loopTrigger
  simp only [hch, ht, hdue, if_true]
  congr 1

/-- The colour byte of heading 90 is 63: `90 / 360` and `0.25 * 255` are
binary32 values. -/
theorem floor_heading_ninety : Int.toNat ⌊fl (fl ((90 : ℚ) / 360) * 255)⌋ = 63 := by
  have h1 : IsF32 ((90 : ℚ) / 360) :=
    isF32_of_eq_dyadic _ 1 (-2) (by decide) (by decide) (by norm_num)
  have h2 : IsF32 ((90 : ℚ) / 360 * 255) :=
    isF32_of_eq_dyadic _ 255 (-2) (by decide) (by decide) (by norm_num)
  rw [(h1 : fl _ = _), (h2 : fl _ = _)]
  have h : ⌊(90 : ℚ) / 360 * 255⌋ = 63 := by
    rw [Int.floor_eq_iff]
    norm_num
  rw [h]
  rfl

/-- At heading `4394767 / 32768` (about 134.12, a binary32 value) the quotient
by 360 and the product by 255 both round, and the colour byte is 95, one more
than the integer part 94 of the exact `heading / 360 * 255`. -/
theorem rounded_heading_color :
    Int.toNat ⌊fl (fl ((4394767 / 32768 : ℚ) / 360) * 255)⌋ = 95 ∧
    Int.toNat ⌊(4394767 / 32768 : ℚ) / 360 * 255⌋ = 94 ∧
    IsF32 (4394767 / 32768) := by
  have h1 : fl ((4394767 / 32768 : ℚ) / 360) = 12500671 / 33554432 := by
    have h := fl_eq_of_bounds ((4394767 / 32768 : ℚ) / 360) (-2) 12500671
      (by norm_num [abs_of_pos]) (by norm_num [abs_of_pos]) (by decide) (by
        apply roundNE_eq_of_near <;> norm_num)
    rw [h]
    norm_num
  have h2 : fl ((12500671 / 33554432 : ℚ) * 255) = 95 := by
    have h := fl_eq_of_bounds ((12500671 / 33554432 : ℚ) * 255) 6 12451840
      (by norm_num [abs_of_pos]) (by norm_num [abs_of_pos]) (by decide) (by
        apply roundNE_eq_of_near <;> norm_num)
    rw [h]
    norm_num
  refine ⟨?_, ?_, ?_⟩
  · rw [h1, h2]
    have h : ⌊(95 : ℚ)⌋ = 95 := by
      rw [Int.floor_eq_iff]
      norm_num
    rw [h]
    rfl
  · have h : ⌊(4394767 / 32768 : ℚ) / 360 * 255⌋ = 94 := by
      rw [Int.floor_eq_iff]
      norm_num
    rw [h]
    rfl
  · exact isF32_of_eq_dyadic _ 4394767 (-15) (by decide) (by decide) (by norm_num)

/-- A firing iteration from the initial state at heading `4394767 / 32768` in
which every draw selects pixel 5 with offset 15: the pixel is ignited as
`{255, 110}` and stored as `{252, 110}`. -/
theorem rounded_heading_pixel :
    loopFires ⟨0, 0, initPixels⟩ ⟨101, 2 / 5, 4394767 / 32768, fun _ => (5, 15)⟩ = true ∧
    (loopTrigger ⟨0, 0, initPixels⟩
      ⟨101, 2 / 5, 4394767 / 32768, fun _ => (5, 15)⟩).pixels 5 = ⟨255, 110⟩ ∧
    (loop ⟨0, 0, initPixels⟩
      ⟨101, 2 / 5, 4394767 / 32768, fun _ => (5, 15)⟩).pixels 5 = ⟨252, 110⟩ := by
  have hdue : sampleDue 101 0 = true := by decide
  have hc : (2 / 5 : ℚ) > 1 / 4 := by norm_num
  have hl : (2 / 5 : ℚ) > 0 := by norm_num
  have hcol : sampledColor ⟨0, 0, initPixels⟩
      ⟨101, 2 / 5, 4394767 / 32768, fun _ => (5, 15)⟩ = 95 := by
    rw [(sampledColor_of_due ⟨0, 0, initPixels⟩
      ⟨101, 2 / 5, 4394767 / 32768, fun _ => (5, 15)⟩ hdue (by norm_num) (by norm_num)).1]
    exact rounded_heading_color.1
  have hpix := (loop_fire_from_dark 0 0 ⟨101, 2 / 5, 4394767 / 32768, fun _ => (5, 15)⟩
    hdue hc hl (fun _ _ => by show 5 < 34; decide) 5).1 ⟨0, by decide, rfl⟩
  obtain ⟨k, _, _, htrig, _, hval⟩ := hpix
  rw [hcol] at htrig hval
  exact ⟨(loopTrigger_of_fire ⟨0, 0, initPixels⟩
    ⟨101, 2 / 5, 4394767 / 32768, fun _ => (5, 15)⟩ hdue hc hl).1, htrig, hval⟩

/-- C8 (as stated, refuted): in the scenario with changes `[0.0, 0.4]` and
heading 90, where every draw selects pixel 5 with offset 3, the trigger fires
in the second iteration and pixel 5 is stored as `{252, 66}` after it, not with
brightness 255: the render loop of the same iteration has already subtracted 3.
And at heading `4394767 / 32768` with offset 15 the stored colour index is 110,
above `floor(h/360*255) + 15 = 109`: the colour byte is computed in binary32. -/
theorem ignited_brightness_counterexample :
    loopFires (loop ⟨0, 0, initPixels⟩ ⟨101, 0, 90, fun _ => (5, 3)⟩)
      ⟨202, 2 / 5, 90, fun _ => (5, 3)⟩ = true ∧
    (runLoop ⟨0, 0, initPixels⟩
      [⟨101, 0, 90, fun _ => (5, 3)⟩, ⟨202, 2 / 5, 90, fun _ => (5, 3)⟩]).pixels 5
      = ⟨252, 66⟩ ∧
    ((runLoop ⟨0, 0, initPixels⟩
      [⟨101, 0, 90, fun _ => (5, 3)⟩, ⟨202, 2 / 5, 90, fun _ => (5, 3)⟩]).pixels 5).value
      ≠ 255 ∧
    (loop ⟨0, 0, initPixels⟩
      ⟨101, 2 / 5, 4394767 / 32768, fun _ => (5, 15)⟩).pixels 5 = ⟨252, 110⟩ ∧
    Int.toNat ⌊(4394767 / 32768 : ℚ) / 360 * 255⌋ + 15 = 109 := by
  have h1 : loop ⟨0, 0, initPixels⟩ ⟨101, 0, 90, fun _ => (5, 3)⟩ = ⟨101, 0, initPixels⟩ :=
    loop_zero_change_from_dark 0 101 90 _ (by decide)
  have hdue : sampleDue 202 101 = true := by decide
  have hc : (2 / 5 : ℚ) > 1 / 4 := by norm_num
  have hl : (2 / 5 : ℚ) > 0 := by norm_num
  have hrun : runLoop ⟨0, 0, initPixels⟩
      [⟨101, 0, 90, fun _ => (5, 3)⟩, ⟨202, 2 / 5, 90, fun _ => (5, 3)⟩] =
      loop ⟨101, 0, initPixels⟩ ⟨202, 2 / 5, 90, fun _ => (5, 3)⟩ := by
    simp only [runLoop, List.foldl_cons, List.foldl_nil, h1]
  have hcol : sampledColor ⟨101, 0, initPixels⟩ ⟨202, 2 / 5, 90, fun _ => (5, 3)⟩ = 63 := by
    rw [(sampledColor_of_due ⟨101, 0, initPixels⟩ ⟨202, 2 / 5, 90, fun _ => (5, 3)⟩ hdue
      (by norm_num) (by norm_num)).1]
    exact floor_heading_ninety
  have hpix := (loop_fire_from_dark 101 0 ⟨202, 2 / 5, 90, fun _ => (5, 3)⟩ hdue hc hl
    (fun _ _ => by show 5 < 34; decide) 5).1 ⟨0, by decide, rfl⟩
  obtain ⟨k, _, _, _, _, hval⟩ := hpix
  rw [hcol] at hval
  have hval5 : (loop ⟨101, 0, initPixels⟩ ⟨202, 2 / 5, 90, fun _ => (5, 3)⟩).pixels 5 =
      ⟨252, 66⟩ := hval
  refine ⟨?_, ?_, ?_, rounded_heading_pixel.2.2, ?_⟩
  · rw [h1]
    exact (loopTrigger_of_fire ⟨101, 0, initPixels⟩ ⟨202, 2 / 5, 90, fun _ => (5, 3)⟩
      hdue hc hl).1
  · rw [hrun, hval5]
  · rw [hrun, hval5]
    decide
  · rw [rounded_heading_color.2.1]

/-- C8 (amended): from an all-zero field and `last_change = 0`, for a heading in
`[0, 360)`, a sampled change above 0.25 and draws within their bounds, the
trigger fires; every pixel some draw selects is set to brightness 255 by the
ignition, is emitted at 255 and is stored at 252 at the end of the iteration,
with colour index `(color + off) mod 256` for an offset below 16, where `color`
is the integer part of `fl (fl (h / 360) * 255)`, the colour byte as the code
computes it in binary32; every other pixel is still `{0, 0}`; the selected
indices are between 1 and 20 in number and all below `LED_COUNT`. -/
theorem ignition_end_to_end (lastCheck : Nat) (inp : LoopInput)
    (hdue : sampleDue inp.now lastCheck = true)
    (hh0 : 0 ≤ inp.heading) (hh1 : inp.heading < 360)
    (hc : inp.accChange > 1 / 4)
    (hd : ∀ k, k < 20 → (inp.draws k).1 < LED_COUNT ∧ (inp.draws k).2 < 16) :
    loopFires ⟨lastCheck, 0, initPixels⟩ inp = true ∧
    (∀ i : Fin LED_COUNT, (∃ k, k < 20 ∧ (inp.draws k).1 = i.val) →
      ((loopTrigger ⟨lastCheck, 0, initPixels⟩ inp).pixels i).value = 255 ∧
      ∃ off, off < 16 ∧
        loopFrame ⟨lastCheck, 0, initPixels⟩ inp i = Led.fromPalette
          ((Int.toNat ⌊fl (fl (inp.heading / 360) * 255)⌋ + off) % 256) 255 ∧
        (loop ⟨lastCheck, 0, initPixels⟩ inp).pixels i =
          ⟨252, (Int.toNat ⌊fl (fl (inp.heading / 360) * 255)⌋ + off) % 256⟩) ∧
    (∀ i : Fin LED_COUNT, (¬ ∃ k, k < 20 ∧ (inp.draws k).1 = i.val) →
      (loop ⟨lastCheck, 0, initPixels⟩ inp).pixels i = ⟨0, 0⟩) ∧
    1 ≤ ((Finset.range 20).image (fun k => (inp.draws k).1)).card ∧
    ((Finset.range 20).image (fun k => (inp.draws k).1)).card ≤ 20 ∧
    (∀ j ∈ (Finset.range 20).image (fun k => (inp.draws k).1), j < LED_COUNT) := by
  have hl : inp.accChange > 0 := by linarith
  have hcol := (sampledColor_of_due ⟨lastCheck, 0, initPixels⟩ inp hdue hh0 hh1).1
  have hpix := loop_fire_from_dark lastCheck 0 inp hdue hc hl (fun k hk => (hd k hk).1)
  refine ⟨(loopTrigger_of_fire ⟨lastCheck, 0, initPixels⟩ inp hdue hc hl).1, ?_, ?_, ?_, ?_, ?_⟩
  · intro i hi
    obtain ⟨k, hk, _, htrig, hframe, hstore⟩ := (hpix i).1 hi
    rw [hcol] at hframe hstore
    refine ⟨?_, (inp.draws k).2, (hd k hk).2, ?_, ?_⟩
    · rw [htrig]
    · rw [hframe, Nat.add_comm]
    · rw [hstore, Nat.add_comm]
  · intro i hi
    exact ((hpix i).2 hi).2.2
  · rw [Nat.succ_le_iff, Finset.card_pos]
    exact ⟨(inp.draws 0).1, Finset.mem_image.mpr ⟨0, Finset.mem_range.mpr (by decide), rfl⟩⟩
  · calc ((Finset.range 20).image (fun k => (inp.draws k).1)).card
        ≤ (Finset.range 20).card := Finset.card_image_le
      _ = 20 := Finset.card_range 20
  · intro j hj
    obtain ⟨k, hk, rfl⟩ := Finset.mem_image.mp hj
    exact (hd k (Finset.mem_range.mp hk)).1

/-- C8 (amended), on the spec's scenario: changes `[0.0, 0.4]`, heading 90, with
draw `k` selecting pixel `7 k mod 34` with offset `5 k mod 16`. The first
iteration leaves the initial state, the colour byte is 63 (no rounding occurs
at heading 90), and the second iteration is the firing one. -/
theorem ignition_end_to_end_witness :
    (loopFires ⟨101, 0, initPixels⟩ ⟨202, 2 / 5, 90, fun k => (7 * k % 34, 5 * k % 16)⟩ = true ∧
    (∀ i : Fin LED_COUNT, (∃ k, k < 20 ∧ 7 * k % 34 = i.val) →
      ((loopTrigger ⟨101, 0, initPixels⟩
        ⟨202, 2 / 5, 90, fun k => (7 * k % 34, 5 * k % 16)⟩).pixels i).value = 255 ∧
      ∃ off, off < 16 ∧
        loopFrame ⟨101, 0, initPixels⟩ ⟨202, 2 / 5, 90, fun k => (7 * k % 34, 5 * k % 16)⟩ i
          = Led.fromPalette ((Int.toNat ⌊fl (fl ((90 : ℚ) / 360) * 255)⌋ + off) % 256) 255 ∧
        (loop ⟨101, 0, initPixels⟩
          ⟨202, 2 / 5, 90, fun k => (7 * k % 34, 5 * k % 16)⟩).pixels i =
          ⟨252, (Int.toNat ⌊fl (fl ((90 : ℚ) / 360) * 255)⌋ + off) % 256⟩) ∧
    (∀ i : Fin LED_COUNT, (¬ ∃ k, k < 20 ∧ 7 * k % 34 = i.val) →
      (loop ⟨101, 0, initPixels⟩
        ⟨202, 2 / 5, 90, fun k => (7 * k % 34, 5 * k % 16)⟩).pixels i = ⟨0, 0⟩) ∧
    1 ≤ ((Finset.range 20).image (fun k => 7 * k % 34)).card ∧
    ((Finset.range 20).image (fun k => 7 * k % 34)).card ≤ 20 ∧
    (∀ j ∈ (Finset.range 20).image (fun k => 7 * k % 34), j < LED_COUNT)) ∧
    loop ⟨0, 0, initPixels⟩ ⟨101, 0, 90, fun k => (7 * k % 34, 5 * k % 16)⟩ =
      ⟨101, 0, initPixels⟩ ∧
    Int.toNat ⌊fl (fl ((90 : ℚ) / 360) * 255)⌋ = 63 :=
  ⟨ignition_end_to_end 101 ⟨202, 2 / 5, 90, fun k => (7 * k % 34, 5 * k % 16)⟩
      (by decide) (by norm_num) (by norm_num) (by norm_num)
      (fun k _ => ⟨Nat.mod_lt _ (by decide), Nat.mod_lt _ (by decide)⟩),
    loop_zero_change_from_dark 0 101 90 _ (by decide),
    floor_heading_ninety⟩

/-- C9 (as stated, refuted): with `lastCheck = 0` and `now = 100` exactly 100 ms
have elapsed, yet the guard is false: the iteration does not sample (a pending
change of 1 is not seen, the trigger does not fire) and `lastCheck` stays 0. -/
theorem sample_at_100ms_counterexample :
    (100 + 2 ^ 32 - 0) % 2 ^ 32 ≥ 100 ∧
    sampleDue 100 0 = false ∧
    sampledChange ⟨0, 0, initPixels⟩ ⟨100, 1, 90, fun _ => (0, 0)⟩ = 0 ∧
    loopFires ⟨0, 0, initPixels⟩ ⟨100, 1, 90, fun _ => (0, 0)⟩ = false ∧
    (loop ⟨0, 0, initPixels⟩ ⟨100, 1, 90, fun _ => (0, 0)⟩).lastCheck = 0 := by
  have hdue : sampleDue 100 0 = false := by decide
  have hch : sampledChange ⟨0, 0, initPixels⟩ ⟨100, 1, 90, fun _ => (0, 0)⟩ = 0 := by
    unfold sampledChange
    simp [hdue]
  refine ⟨by decide, hdue, hch, ?_, ?_⟩
  · unfold loopFires
    rw [hch]
    unfold triggerStep
    norm_num
  · unfold loop loopTrigger
    simp [hdue]

/-- C9 (amended): with 32-bit clock values, an iteration samples the sensors
exactly when more than 100 ms have elapsed, `(now - lastCheck) mod 2^32 > 100`
(which is `now - lastCheck >= 101` when the clock has not wrapped); when it
samples, `lastCheck` becomes `now` and the sensor values are used; when it does
not, `lastCheck` is kept and the change and colour of the iteration are 0. -/
theorem sample_iff_elapsed_gt_100 (s : LoopState) (inp : LoopInput)
    (hs : s.lastCheck < 2 ^ 32) (hn : inp.now < 2 ^ 32) :
    (sampleDue inp.now s.lastCheck = true ↔
      100 < ((inp.now : ℤ) - (s.lastCheck : ℤ)) % 2 ^ 32) ∧
    (s.lastCheck ≤ inp.now →
      (sampleDue inp.now s.lastCheck = true ↔ 101 ≤ inp.now - s.lastCheck)) ∧
    (sampleDue inp.now s.lastCheck = true →
      (loop s inp).lastCheck = inp.now ∧ sampledChange s inp = inp.accChange ∧
      sampledColor s inp = toByte (truncQ (fl (fl (inp.heading / 360) * 255)))) ∧
    (sampleDue inp.now s.lastCheck = false →
      (loop s inp).lastCheck = s.lastCheck ∧ sampledChange s inp = 0 ∧
      sampledColor s inp = 0) := by
  refine ⟨?_, ?_, ?_, ?_⟩
  · unfold sampleDue
    simp only [decide_eq_true_eq]
    omega
  · intro hle
    unfold sampleDue
    simp only [decide_eq_true_eq]
    omega
  · intro hdue
    refine ⟨?_, ?_, ?_⟩
    · unfold loop loopTrigger
      simp [hdue]
    · unfold sampledChange
      simp [hdue]
    · unfold sampledColor
      simp [hdue]
  · intro hdue
    refine ⟨?_, ?_, ?_⟩
    · unfold loop loopTrigger
      simp [hdue]
    · unfold sampledChange
      simp [hdue]
    · unfold sampledColor
      simp [hdue]

/-- C9 (amended), at `lastCheck = 0` and `now = 101`: the iteration samples. -/
theorem sample_iff_elapsed_gt_100_witness :
    (sampleDue 101 0 = true ↔ 100 < (((101 : ℕ) : ℤ) - ((0 : ℕ) : ℤ)) % 2 ^ 32) ∧
    (0 ≤ 101 → (sampleDue 101 0 = true ↔ 101 ≤ 101 - 0)) ∧
    (sampleDue 101 0 = true →
      (loop ⟨0, 0, initPixels⟩ ⟨101, 2 / 5, 90, fun _ => (0, 0)⟩).lastCheck = 101 ∧
      sampledChange ⟨0, 0, initPixels⟩ ⟨101, 2 / 5, 90, fun _ => (0, 0)⟩ = 2 / 5 ∧
      sampledColor ⟨0, 0, initPixels⟩ ⟨101, 2 / 5, 90, fun _ => (0, 0)⟩ =
        toByte (truncQ (fl (fl ((90 : ℚ) / 360) * 255)))) ∧
    (sampleDue 101 0 = false →
      (loop ⟨0, 0, initPixels⟩ ⟨101, 2 / 5, 90, fun _ => (0, 0)⟩).lastCheck = 0 ∧
      sampledChange ⟨0, 0, initPixels⟩ ⟨101, 2 / 5, 90, fun _ => (0, 0)⟩ = 0 ∧
      sampledColor ⟨0, 0, initPixels⟩ ⟨101, 2 / 5, 90, fun _ => (0, 0)⟩ = 0) :=
  sample_iff_elapsed_gt_100 ⟨0, 0, initPixels⟩ ⟨101, 2 / 5, 90, fun _ => (0, 0)⟩
    (by decide) (by decide)

/-! ## Helper lemmas: iterations in which the trigger does not fire -/

/-- One decay tick never stores a larger brightness. -/
theorem decayTick_value_le (p : Pixel) : (decayTick p).value ≤ p.value := by
  unfold decayTick renderPixel
  split
  · exact Nat.zero_le _
  · show (p.value + 256 - 3) % 256 ≤ p.value
    omega

/-- An iteration in which the trigger does not fire only decays the field. -/
theorem loop_pixels_of_not_fire (s : LoopState) (inp : LoopInput)
    (h : loopFires s inp = false) : (loop s inp).pixels = decayField s.pixels := by
  unfold loopFires at h
  unfold loop loopTrigger
  simp only [h]
  rfl

theorem runLoop_append (s : LoopState) (pre post : List LoopInput) :
    runLoop s (pre ++ post) = runLoop (runLoop s pre) post := by
  unfold runLoop
  rw [List.foldl_append]

theorem quietRun_append (s : LoopState) (pre post : List LoopInput)
    (h : quietRun s (pre ++ post) = true) : quietRun (runLoop s pre) post = true := by
  induction pre generalizing s with
  | nil => exact h
  | cons inp rest ih =>
    simp only [List.cons_append, quietRun, Bool.and_eq_true] at h
    exact ih (loop s inp) h.2

/-- Over a run without firing no pixel is brighter at the end than at the start. -/
theorem quietRun_value_le (s : LoopState) (inps : List LoopInput)
    (h : quietRun s inps = true) (i : Fin LED_COUNT) :
    ((runLoop s inps).pixels i).value ≤ (s.pixels i).value := by
  induction inps generalizing s with
  | nil => exact le_rfl
  | cons inp rest ih =>
    simp only [quietRun, Bool.and_eq_true, Bool.not_eq_true'] at h
    have hstep : ((loop s inp).pixels i).value ≤ (s.pixels i).value := by
      rw [loop_pixels_of_not_fire s inp h.1]
      exact decayTick_value_le (s.pixels i)
    exact le_trans (ih (loop s inp) h.2) hstep

/-- C10: one decay tick never increases a pixel's brightness: a byte `b >= 3`
ends as exactly `b - 3` (no wrap) and `b < 3` ends as 0; hence along any run of
iterations in which the trigger does not fire, every pixel's brightness after
more iterations is at most its brightness after fewer. -/
theorem decay_never_brightens (s : LoopState) (pre post : List LoopInput)
    (hq : quietRun s (pre ++ post) = true) :
    (∀ (px : PixelField) (i : Fin LED_COUNT),
      (decayField px i).value ≤ (px i).value ∧
      (3 ≤ (px i).value → (px i).value < 256 →
        (decayField px i).value = (px i).value - 3) ∧
      ((px i).value < 3 → (decayField px i).value = 0)) ∧
    (∀ i : Fin LED_COUNT,
      ((runLoop s (pre ++ post)).pixels i).value ≤ ((runLoop s pre).pixels i).value) := by
  constructor
  · intro px i
    exact ⟨decayTick_value_le (px i), decayTick_value_ge (px i), decayTick_value_lt (px i)⟩
  · intro i
    rw [runLoop_append]
    exact quietRun_value_le (runLoop s pre) post (quietRun_append s pre post hq) i

/-- C10, on a field of pixels `{200, 9}` over three iterations: one that does
not sample, one that samples a change of 0.2 (below the threshold) and one that
does not sample again. The brightness after all three is at most the one after
the first. -/
theorem decay_never_brightens_witness :
    (∀ (px : PixelField) (i : Fin LED_COUNT),
      (decayField px i).value ≤ (px i).value ∧
      (3 ≤ (px i).value → (px i).value < 256 →
        (decayField px i).value = (px i).value - 3) ∧
      ((px i).value < 3 → (decayField px i).value = 0)) ∧
    (∀ i : Fin LED_COUNT,
      ((runLoop ⟨0, 0, fun _ => ⟨200, 9⟩⟩
        ([⟨10, 1, 90, fun _ => (0, 0)⟩] ++
          [⟨150, 1 / 5, 90, fun _ => (0, 0)⟩, ⟨160, 1, 90, fun _ => (0, 0)⟩])).pixels i).value ≤
      ((runLoop ⟨0, 0, fun _ => ⟨200, 9⟩⟩ [⟨10, 1, 90, fun _ => (0, 0)⟩]).pixels i).value) :=
  decay_never_brightens ⟨0, 0, fun _ => ⟨200, 9⟩⟩ [⟨10, 1, 90, fun _ => (0, 0)⟩]
    [⟨150, 1 / 5, 90, fun _ => (0, 0)⟩, ⟨160, 1, 90, fun _ => (0, 0)⟩] (by
      norm_num [quietRun, loopFires, sampledChange, sampleDue, triggerStep, loop, loopTrigger])

/-! ## Helper lemmas: ignition on an arbitrary field -/

/-- The ignition loop cut after `n` passes. -/
theorem foldl_range_succ_ignite (color : Nat) (draws : Nat → Nat × Nat) (px : PixelField)
    (n : Nat) :
    (List.range (n + 1)).foldl (fun acc j => ignitePixel color acc (draws j)) px =
      ignitePixel color
        ((List.range n).foldl (fun acc j => ignitePixel color acc (draws j)) px) (draws n) := by
  rw [List.range_succ, List.foldl_append]
  rfl

/-- A pixel that none of the first `n` passes selects is what it was. -/
theorem foldl_range_ignite_miss (color : Nat) (draws : Nat → Nat × Nat) (px : PixelField)
    (i : Fin LED_COUNT) (n : Nat)
    (h : ∀ k, k < n → toByte ((draws k).1 : ℤ) ≠ i.val) :
    (List.range n).foldl (fun acc j => ignitePixel color acc (draws j)) px i = px i := by
  induction n with
  | zero => rfl
  | succ m ih =>
    rw [foldl_range_succ_ignite, ignitePixel_other color _ (draws m) i (h m (Nat.lt_succ_self m))]
    exact ih (fun k hk => h k (Nat.lt_succ_of_lt hk))

/-- A pixel holds the values of the last pass that selected it. -/
theorem foldl_range_ignite_last (color : Nat) (draws : Nat → Nat × Nat) (px : PixelField)
    (i : Fin LED_COUNT) (n k : Nat) (hk : k < n)
    (hit : toByte ((draws k).1 : ℤ) = i.val)
    (hlast : ∀ j, k < j → j < n → toByte ((draws j).1 : ℤ) ≠ i.val) :
    (List.range n).foldl (fun acc j => ignitePixel color acc (draws j)) px i =
      ⟨255, toByte (((draws k).2 : ℤ) + (color : ℤ))⟩ := by
  induction n with
  | zero => exact absurd hk (Nat.not_lt_zero k)
  | succ m ih =>
    rw [foldl_range_succ_ignite]
    by_cases hkm : k = m
    · subst hkm
      exact ignitePixel_hit color _ (draws k) i hit
    · have hlt : k < m := by omega
      rw [ignitePixel_other color _ (draws m) i (hlast m hlt (Nat.lt_succ_self m))]
      exact ih hlt (fun j hj1 hj2 => hlast j hj1 (Nat.lt_succ_of_lt hj2))

/-- If some pass selects the pixel there is a last such pass. -/
theorem exists_last_draw (draws : Nat → Nat × Nat) (i : Fin LED_COUNT) (n : Nat)
    (h : ∃ k, k < n ∧ toByte ((draws k).1 : ℤ) = i.val) :
    ∃ k, k < n ∧ toByte ((draws k).1 : ℤ) = i.val ∧
      ∀ j, k < j → j < n → toByte ((draws j).1 : ℤ) ≠ i.val := by
  induction n with
  | zero =>
    obtain ⟨k, hk, _⟩ := h
    exact absurd hk (Nat.not_lt_zero k)
  | succ m ih =>
    by_cases hm : toByte ((draws m).1 : ℤ) = i.val
    · exact ⟨m, Nat.lt_succ_self m, hm, fun j h1 h2 => by omega⟩
    · obtain ⟨k, hk, hki⟩ := h
      have hkm : k < m := by
        rcases Nat.lt_succ_iff_lt_or_eq.mp hk with h1 | h1
        · exact h1
        · subst h1
          exact absurd hki hm
      obtain ⟨k', hk', hit, hlast⟩ := ih ⟨k, hkm, hki⟩
      refine ⟨k', Nat.lt_succ_of_lt hk', hit, ?_⟩
      intro j h1 h2
      rcases Nat.lt_succ_iff_lt_or_eq.mp h2 with h3 | h3
      · exact hlast j h1 h3
      · subst h3
        exact hm

/-- The trigger fires exactly when the sensors are sampled and the sampled
change exceeds both 0.25 and `last_change`. -/
theorem loopFires_iff (s : LoopState) (inp : LoopInput) :
    loopFires s inp = true ↔
      (sampleDue inp.now s.lastCheck = true ∧ inp.accChange > 1 / 4 ∧
        inp.accChange > s.last_change) := by
  unfold loopFires sampledChange triggerStep
  simp only [decide_eq_true_eq]
  by_cases hdue : sampleDue inp.now s.lastCheck = true
  · simp only [hdue, if_true, true_and]
  · simp only [hdue, false_and, iff_false]
    norm_num

/-- The field before the render loop: ignited when the trigger fires, else as
it was. -/
theorem loopTrigger_pixels (s : LoopState) (inp : LoopInput) :
    (loopTrigger s inp).pixels =
      if loopFires s inp = true then ignite (sampledColor s inp) inp.draws s.pixels
      else s.pixels := rfl

/-- An iteration that does not ignite pixel `i` leaves it to the render loop
as it was. -/
theorem loopTrigger_pixel_of_not_ignites (s : LoopState) (inp : LoopInput)
    (i : Fin LED_COUNT) (h : ignitesPixel s inp i = false) :
    (loopTrigger s inp).pixels i = s.pixels i := by
  rw [loopTrigger_pixels]
  by_cases hf : loopFires s inp = true
  · rw [if_pos hf]
    unfold ignitesPixel at h
    rw [hf, Bool.true_and] at h
    have hmiss : ∀ k, k < 20 → toByte ((inp.draws k).1 : ℤ) ≠ i.val := by
      intro k hk hki
      have : (List.range 20).any
          (fun k => decide (toByte ((inp.draws k).1 : ℤ) = i.val)) = true :=
        List.any_eq_true.mpr ⟨k, List.mem_range.mpr hk, by simp [hki]⟩
      rw [h] at this
      exact absurd this (by decide)
    exact foldl_range_ignite_miss _ inp.draws s.pixels i 20 hmiss
  · rw [if_neg hf]

/-- An iteration that ignites pixel `i` hands it to the render loop with
brightness 255 and the colour of the last pass that selected it. -/
theorem loopTrigger_pixel_of_ignites (s : LoopState) (inp : LoopInput)
    (i : Fin LED_COUNT) (h : ignitesPixel s inp i = true) :
    loopFires s inp = true ∧
    ∃ k, k < 20 ∧ toByte ((inp.draws k).1 : ℤ) = i.val ∧
      (∀ j, k < j → j < 20 → toByte ((inp.draws j).1 : ℤ) ≠ i.val) ∧
      (loopTrigger s inp).pixels i =
        ⟨255, toByte (((inp.draws k).2 : ℤ) + (sampledColor s inp : ℤ))⟩ := by
  unfold ignitesPixel at h
  rw [Bool.and_eq_true] at h
  obtain ⟨hf, hany⟩ := h
  obtain ⟨k, hk, hki⟩ := List.any_eq_true.mp hany
  have hk20 : k < 20 := List.mem_range.mp hk
  have hki' : toByte ((inp.draws k).1 : ℤ) = i.val := of_decide_eq_true hki
  obtain ⟨k', hk', hit, hlast⟩ := exists_last_draw inp.draws i 20 ⟨k, hk20, hki'⟩
  refine ⟨hf, k', hk', hit, hlast, ?_⟩
  rw [loopTrigger_pixels, if_pos hf]
  exact foldl_range_ignite_last _ inp.draws s.pixels i 20 k' hk' hit hlast

/-- The stored pixel after an iteration is the decay tick of the pixel handed
to the render loop. -/
theorem loop_pixel_eq (s : LoopState) (inp : LoopInput) (i : Fin LED_COUNT) :
    (loop s inp).pixels i = decayTick ((loopTrigger s inp).pixels i) := rfl

theorem loopFrame_pixel_eq (s : LoopState) (inp : LoopInput) (i : Fin LED_COUNT) :
    loopFrame s inp i = (renderPixel ((loopTrigger s inp).pixels i)).1 := rfl

/-- An iteration that ignites pixel `i` emits it at 255 and stores it at 252,
with the colour of the last pass that selected it. -/
theorem loop_pixel_of_ignites (s : LoopState) (inp : LoopInput)
    (i : Fin LED_COUNT) (h : ignitesPixel s inp i = true) :
    ∃ k, k < 20 ∧ toByte ((inp.draws k).1 : ℤ) = i.val ∧
      (∀ j, k < j → j < 20 → toByte ((inp.draws j).1 : ℤ) ≠ i.val) ∧
      loopFrame s inp i =
        Led.fromPalette (toByte (((inp.draws k).2 : ℤ) + (sampledColor s inp : ℤ))) 255 ∧
      (loop s inp).pixels i =
        ⟨252, toByte (((inp.draws k).2 : ℤ) + (sampledColor s inp : ℤ))⟩ := by
  obtain ⟨_, k, hk, hit, hlast, hval⟩ := loopTrigger_pixel_of_ignites s inp i h
  refine ⟨k, hk, hit, hlast, ?_, ?_⟩
  · rw [loopFrame_pixel_eq, hval, renderPixel_ignited]
  · rw [loop_pixel_eq, hval]
    unfold decayTick
    rw [renderPixel_ignited]

/-- An iteration that samples sets `lastCheck` to the clock value. -/
theorem loop_lastCheck_of_due (s : LoopState) (inp : LoopInput)
    (hdue : sampleDue inp.now s.lastCheck = true) : (loop s inp).lastCheck = inp.now := by
  unfold loop loopTrigger
  simp [hdue]

/-- After a firing iteration `last_change` is the sampled change. -/
theorem loop_last_change_of_fire (s : LoopState) (inp : LoopInput)
    (hf : loopFires s inp = true) : (loop s inp).last_change = inp.accChange := by
  obtain ⟨hdue, hc, hl⟩ := (loopFires_iff s inp).mp hf
  exact (loopTrigger_of_fire s inp hdue hc hl).2.2

/-- The colour byte of heading 180 is 127. -/
theorem floor_heading_oneeighty : Int.toNat ⌊fl (fl ((180 : ℚ) / 360) * 255)⌋ = 127 := by
  have h1 : IsF32 ((180 : ℚ) / 360) :=
    isF32_of_eq_dyadic _ 1 (-1) (by decide) (by decide) (by norm_num)
  have h2 : IsF32 ((180 : ℚ) / 360 * 255) :=
    isF32_of_eq_dyadic _ 255 (-1) (by decide) (by decide) (by norm_num)
  rw [(h1 : fl _ = _), (h2 : fl _ = _)]
  have h : ⌊(180 : ℚ) / 360 * 255⌋ = 127 := by
    rw [Int.floor_eq_iff]
    norm_num
  rw [h]
  rfl

/-- Two firing iterations that both select pixel 5 with offset 3: the first
with heading 90 from the initial state, the second with heading 180. Pixel 5 is
`{252, 66}` after the first and `{252, 130}` after the second. -/
theorem reignite_pixel_five :
    (loop ⟨0, 0, initPixels⟩ ⟨101, 2 / 5, 90, fun _ => (5, 3)⟩).pixels 5 = ⟨252, 66⟩ ∧
    ignitesPixel (loop ⟨0, 0, initPixels⟩ ⟨101, 2 / 5, 90, fun _ => (5, 3)⟩)
      ⟨202, 1 / 2, 180, fun _ => (5, 3)⟩ 5 = true ∧
    (loop (loop ⟨0, 0, initPixels⟩ ⟨101, 2 / 5, 90, fun _ => (5, 3)⟩)
      ⟨202, 1 / 2, 180, fun _ => (5, 3)⟩).pixels 5 = ⟨252, 130⟩ := by
  have hdue1 : sampleDue 101 0 = true := by decide
  have hdue2 : sampleDue 202 101 = true := by decide
  have hf1 : loopFires ⟨0, 0, initPixels⟩ ⟨101, 2 / 5, 90, fun _ => (5, 3)⟩ = true :=
    (loopFires_iff _ _).mpr ⟨hdue1, by norm_num, by norm_num⟩
  have hany : (List.range 20).any
      (fun _ => decide (toByte (((5 : ℕ) : ℤ)) = (5 : Fin LED_COUNT).val)) = true :=
    List.any_eq_true.mpr ⟨0, List.mem_range.mpr (by decide), by decide⟩
  have hig1 : ignitesPixel ⟨0, 0, initPixels⟩ ⟨101, 2 / 5, 90, fun _ => (5, 3)⟩ 5 = true := by
    unfold ignitesPixel
    rw [hf1, Bool.true_and]
    exact hany
  have hcol1 : sampledColor ⟨0, 0, initPixels⟩ ⟨101, 2 / 5, 90, fun _ => (5, 3)⟩ = 63 := by
    rw [(sampledColor_of_due ⟨0, 0, initPixels⟩ ⟨101, 2 / 5, 90, fun _ => (5, 3)⟩ hdue1
      (by norm_num) (by norm_num)).1]
    exact floor_heading_ninety
  have hp1 : (loop ⟨0, 0, initPixels⟩ ⟨101, 2 / 5, 90, fun _ => (5, 3)⟩).pixels 5 =
      ⟨252, 66⟩ := by
    obtain ⟨k, _, _, _, _, hval⟩ := loop_pixel_of_ignites _ _ 5 hig1
    rw [hval, hcol1]
    rfl
  have hlc : (loop ⟨0, 0, initPixels⟩ ⟨101, 2 / 5, 90, fun _ => (5, 3)⟩).lastCheck = 101 :=
    loop_lastCheck_of_due _ _ hdue1
  have hlast : (loop ⟨0, 0, initPixels⟩ ⟨101, 2 / 5, 90, fun _ => (5, 3)⟩).last_change =
      2 / 5 := loop_last_change_of_fire _ _ hf1
  have hdue2' : sampleDue 202
      (loop ⟨0, 0, initPixels⟩ ⟨101, 2 / 5, 90, fun _ => (5, 3)⟩).lastCheck = true := by
    rw [hlc]
    exact hdue2
  have hf2 : loopFires (loop ⟨0, 0, initPixels⟩ ⟨101, 2 / 5, 90, fun _ => (5, 3)⟩)
      ⟨202, 1 / 2, 180, fun _ => (5, 3)⟩ = true := by
    refine (loopFires_iff _ _).mpr ⟨hdue2', by norm_num, ?_⟩
    rw [hlast]
    norm_num
  have hig2 : ignitesPixel (loop ⟨0, 0, initPixels⟩ ⟨101, 2 / 5, 90, fun _ => (5, 3)⟩)
      ⟨202, 1 / 2, 180, fun _ => (5, 3)⟩ 5 = true := by
    unfold ignitesPixel
    rw [hf2, Bool.true_and]
    exact hany
  have hcol2 : sampledColor (loop ⟨0, 0, initPixels⟩ ⟨101, 2 / 5, 90, fun _ => (5, 3)⟩)
      ⟨202, 1 / 2, 180, fun _ => (5, 3)⟩ = 127 := by
    rw [(sampledColor_of_due _ ⟨202, 1 / 2, 180, fun _ => (5, 3)⟩ hdue2'
      (by norm_num) (by norm_num)).1]
    exact floor_heading_oneeighty
  refine ⟨hp1, hig2, ?_⟩
  obtain ⟨k, _, _, _, _, hval⟩ := loop_pixel_of_ignites _ _ 5 hig2
  rw [hval, hcol2]
  rfl

/-- C11 (as stated, refuted): in the state reached from the initial one by a
firing iteration that ignites pixel 5 with colour 66, a second firing iteration
changes the colour of pixel 5 to 130 although its brightness before that
iteration was 252, not 0. -/
theorem color_fixed_until_dark_counterexample :
    ((runLoop ⟨0, 0, initPixels⟩ [⟨101, 2 / 5, 90, fun _ => (5, 3)⟩]).pixels 5).value ≠ 0 ∧
    ((loop (runLoop ⟨0, 0, initPixels⟩ [⟨101, 2 / 5, 90, fun _ => (5, 3)⟩])
        ⟨202, 1 / 2, 180, fun _ => (5, 3)⟩).pixels 5).color ≠
      ((runLoop ⟨0, 0, initPixels⟩ [⟨101, 2 / 5, 90, fun _ => (5, 3)⟩]).pixels 5).color := by
  have hrun : runLoop ⟨0, 0, initPixels⟩ [⟨101, 2 / 5, 90, fun _ => (5, 3)⟩] =
      loop ⟨0, 0, initPixels⟩ ⟨101, 2 / 5, 90, fun _ => (5, 3)⟩ := rfl
  obtain ⟨h1, _, h2⟩ := reignite_pixel_five
  rw [hrun, h1, h2]
  exact ⟨by decide, by decide⟩

/-- C11 (amended): if a pixel's colour index after an iteration differs from
the one before, then the trigger fired in that iteration and one of the 20
passes of the ignition loop selected that pixel, whatever its brightness was;
the render loop never changes a colour index. -/
theorem color_changes_only_by_ignition (s : LoopState) (inp : LoopInput)
    (i : Fin LED_COUNT)
    (h : ((loop s inp).pixels i).color ≠ (s.pixels i).color) :
    loopFires s inp = true ∧
    (∃ k, k < 20 ∧ toByte ((inp.draws k).1 : ℤ) = i.val) ∧
    ((loopTrigger s inp).pixels i).value = 255 ∧
    ((loop s inp).pixels i).color = ((loopTrigger s inp).pixels i).color := by
  have hig : ignitesPixel s inp i = true := by
    by_contra hn
    have hn' : ignitesPixel s inp i = false := by
      cases hb : ignitesPixel s inp i
      · rfl
      · exact absurd hb hn
    apply h
    rw [loop_pixel_eq, decayTick_color, loopTrigger_pixel_of_not_ignites s inp i hn']
  obtain ⟨hf, k, hk, hit, _, hval⟩ := loopTrigger_pixel_of_ignites s inp i hig
  refine ⟨hf, ⟨k, hk, hit⟩, ?_, ?_⟩
  · rw [hval]
  · rw [loop_pixel_eq, decayTick_color]

/-- C11 (amended), at the second firing iteration of the scenario above: the
colour of pixel 5 changes from 66 to 130 while its brightness was 252. -/
theorem color_changes_only_by_ignition_witness :
    loopFires (loop ⟨0, 0, initPixels⟩ ⟨101, 2 / 5, 90, fun _ => (5, 3)⟩)
      ⟨202, 1 / 2, 180, fun _ => (5, 3)⟩ = true ∧
    (∃ k, k < 20 ∧ toByte (((5 : ℕ) : ℤ)) = (5 : Fin LED_COUNT).val) ∧
    ((loopTrigger (loop ⟨0, 0, initPixels⟩ ⟨101, 2 / 5, 90, fun _ => (5, 3)⟩)
      ⟨202, 1 / 2, 180, fun _ => (5, 3)⟩).pixels 5).value = 255 ∧
    ((loop (loop ⟨0, 0, initPixels⟩ ⟨101, 2 / 5, 90, fun _ => (5, 3)⟩)
      ⟨202, 1 / 2, 180, fun _ => (5, 3)⟩).pixels 5).color =
      ((loopTrigger (loop ⟨0, 0, initPixels⟩ ⟨101, 2 / 5, 90, fun _ => (5, 3)⟩)
        ⟨202, 1 / 2, 180, fun _ => (5, 3)⟩).pixels 5).color :=
  color_changes_only_by_ignition (loop ⟨0, 0, initPixels⟩ ⟨101, 2 / 5, 90, fun _ => (5, 3)⟩)
    ⟨202, 1 / 2, 180, fun _ => (5, 3)⟩ 5 (by
      rw [reignite_pixel_five.1, reignite_pixel_five.2.2]
      decide)

/-- C12 (as stated, refuted): in a firing iteration at heading
`4394767 / 32768` in which every draw selects pixel 5 with offset 15, the
ignition stores colour index 110 in pixel 5, while
`(offset + floor(heading/360*255)) mod 256` is 109: the colour byte is computed
in binary32 and is 95, not 94. -/
theorem ignition_color_counterexample :
    loopFires ⟨0, 0, initPixels⟩ ⟨101, 2 / 5, 4394767 / 32768, fun _ => (5, 15)⟩ = true ∧
    (loopTrigger ⟨0, 0, initPixels⟩
      ⟨101, 2 / 5, 4394767 / 32768, fun _ => (5, 15)⟩).pixels 5 = ⟨255, 110⟩ ∧
    (15 + Int.toNat ⌊(4394767 / 32768 : ℚ) / 360 * 255⌋) % 256 = 109 := by
  refine ⟨rounded_heading_pixel.1, rounded_heading_pixel.2.1, ?_⟩
  rw [rounded_heading_color.2.1]

/-- C12 (amended): in a firing iteration with heading in `[0, 360)` and draws
within their bounds, the ignition sets a drawn pixel to brightness 255 and
colour index `(offset + color) mod 256` with the offset of the last pass that
selected it, where `color` is the integer part of `fl (fl (heading / 360) * 255)`,
the colour byte as the code computes it in binary32, and leaves every pixel that
no pass selected unchanged. -/
theorem ignition_action (s : LoopState) (inp : LoopInput) (i : Fin LED_COUNT)
    (hf : loopFires s inp = true)
    (hh0 : 0 ≤ inp.heading) (hh1 : inp.heading < 360)
    (hd : ∀ k, k < 20 → (inp.draws k).1 < LED_COUNT ∧ (inp.draws k).2 < 16) :
    (∀ k, k < 20 → (inp.draws k).1 = i.val →
      (∀ j, k < j → j < 20 → (inp.draws j).1 ≠ i.val) →
      (loopTrigger s inp).pixels i =
        ⟨255, ((inp.draws k).2 + Int.toNat ⌊fl (fl (inp.heading / 360) * 255)⌋) % 256⟩) ∧
    ((∀ k, k < 20 → (inp.draws k).1 ≠ i.val) →
      (loopTrigger s inp).pixels i = s.pixels i) := by
  have hdue := ((loopFires_iff s inp).mp hf).1
  have hcol := (sampledColor_of_due s inp hdue hh0 hh1).1
  have hbyte : ∀ k, k < 20 → toByte ((inp.draws k).1 : ℤ) = (inp.draws k).1 := by
    intro k hk
    have h34 : (inp.draws k).1 < 34 := (hd k hk).1
    rw [toByte_natCast]
    omega
  rw [loopTrigger_pixels, if_pos hf, hcol]
  constructor
  · intro k hk hit hlast
    have h1 := foldl_range_ignite_last (Int.toNat ⌊fl (fl (inp.heading / 360) * 255)⌋) inp.draws
      s.pixels i 20 k hk (by rw [hbyte k hk, hit])
      (fun j hj1 hj2 => by rw [hbyte j hj2]; exact hlast j hj1 hj2)
    rw [toByte_add_natCast] at h1
    exact h1
  · intro hmiss
    exact foldl_range_ignite_miss _ inp.draws s.pixels i 20
      (fun k hk => by rw [hbyte k hk]; exact hmiss k hk)

/-- C12 (amended), on a field of pixels `{100, 7}` with heading 90, where pass `k` selects
pixel `k mod 10` with offset `k mod 16`: pixel 3 is selected by passes 3 and 13
and holds the offset of pass 13. -/
theorem ignition_action_witness :
    ((∀ k, k < 20 → k % 10 = (3 : Fin LED_COUNT).val →
      (∀ j, k < j → j < 20 → j % 10 ≠ (3 : Fin LED_COUNT).val) →
      (loopTrigger ⟨0, 0, fun _ => ⟨100, 7⟩⟩
        ⟨101, 2 / 5, 90, fun k => (k % 10, k % 16)⟩).pixels 3 =
        ⟨255, (k % 16 + Int.toNat ⌊fl (fl ((90 : ℚ) / 360) * 255)⌋) % 256⟩) ∧
    ((∀ k, k < 20 → k % 10 ≠ (3 : Fin LED_COUNT).val) →
      (loopTrigger ⟨0, 0, fun _ => ⟨100, 7⟩⟩
        ⟨101, 2 / 5, 90, fun k => (k % 10, k % 16)⟩).pixels 3 = ⟨100, 7⟩)) ∧
    (loopTrigger ⟨0, 0, fun _ => ⟨100, 7⟩⟩
        ⟨101, 2 / 5, 90, fun k => (k % 10, k % 16)⟩).pixels 3 =
      ⟨255, (13 % 16 + Int.toNat ⌊fl (fl ((90 : ℚ) / 360) * 255)⌋) % 256⟩ ∧
    (13 % 16 + Int.toNat ⌊fl (fl ((90 : ℚ) / 360) * 255)⌋) % 256 = 76 := by
  have hf : loopFires ⟨0, 0, fun _ => ⟨100, 7⟩⟩
      ⟨101, 2 / 5, 90, fun k => (k % 10, k % 16)⟩ = true :=
    (loopFires_iff _ _).mpr ⟨by decide, by norm_num, by norm_num⟩
  have hthm := ignition_action ⟨0, 0, fun _ => ⟨100, 7⟩⟩
    ⟨101, 2 / 5, 90, fun k => (k % 10, k % 16)⟩ 3 hf (by norm_num) (by norm_num)
    (fun k _ => ⟨Nat.lt_of_lt_of_le (Nat.mod_lt k (by decide)) (by decide),
      Nat.mod_lt k (by decide)⟩)
  refine ⟨hthm, ?_, ?_⟩
  · refine hthm.1 13 (by decide) (by decide) ?_
    intro j h1 h2
    show j % 10 ≠ 3
    omega
  · rw [floor_heading_ninety]

/-! ## Helper lemmas: iterations that do not sample -/

/-- An iteration that does not sample sees change 0, does not fire, keeps
`lastCheck` and resets `last_change` to 0. -/
theorem loop_of_not_due (s : LoopState) (inp : LoopInput)
    (h : sampleDue inp.now s.lastCheck = false) :
    sampledChange s inp = 0 ∧ loopFires s inp = false ∧
    (loop s inp).lastCheck = s.lastCheck ∧ (loop s inp).last_change = 0 := by
  have hch : sampledChange s inp = 0 := by
    unfold sampledChange
    simp [h]
  have ht : triggerStep s.last_change 0 = (false, 0) := by
    unfold triggerStep
    norm_num
  refine ⟨hch, ?_, ?_, ?_⟩
  · unfold loopFires
    rw [hch, ht]
  · unfold loop loopTrigger
    simp [h]
  · unfold loop loopTrigger
    simp only [hch, ht]

/-- The trigger keeps `last_change` either 0 or above 0.25. -/
theorem triggerStep_last_change (l c : ℚ) (h : l = 0 ∨ l > 1 / 4) :
    (triggerStep l c).2 = 0 ∨ (triggerStep l c).2 > 1 / 4 := by
  unfold triggerStep
  simp only [decide_eq_true_eq]
  by_cases h1 : c < 1 / 10
  · left
    rw [if_pos h1]
  · rw [if_neg h1]
    by_cases h2 : c > 1 / 4 ∧ c > l
    · right
      rw [if_pos h2]
      exact h2.1
    · rw [if_neg h2]
      exact h

theorem lastChangeAfter_zero_or_gt (l : ℚ) (cs : List ℚ) (h : l = 0 ∨ l > 1 / 4) :
    lastChangeAfter l cs = 0 ∨ lastChangeAfter l cs > 1 / 4 := by
  induction cs generalizing l with
  | nil => exact h
  | cons c rest ih => exact ih _ (triggerStep_last_change l c h)

theorem runLoop_last_change_zero_or_gt (s : LoopState) (inps : List LoopInput)
    (h : s.last_change = 0 ∨ s.last_change > 1 / 4) :
    (runLoop s inps).last_change = 0 ∨ (runLoop s inps).last_change > 1 / 4 := by
  induction inps generalizing s with
  | nil => exact h
  | cons inp rest ih =>
    exact ih (loop s inp) (triggerStep_last_change s.last_change (sampledChange s inp) h)

/-- C13: an iteration that does not sample the sensors uses motion-change 0,
does not fire the trigger and ignites no pixel: the field after the iteration is
the decay step applied to the field before it. -/
theorem non_sampling_iteration_only_decays (s : LoopState) (inp : LoopInput)
    (h : sampleDue inp.now s.lastCheck = false) :
    sampledChange s inp = 0 ∧ loopFires s inp = false ∧
    (∀ i : Fin LED_COUNT, ignitesPixel s inp i = false) ∧
    (loopTrigger s inp).pixels = s.pixels ∧
    (loop s inp).pixels = decayField s.pixels := by
  obtain ⟨hch, hf, _, _⟩ := loop_of_not_due s inp h
  refine ⟨hch, hf, ?_, ?_, loop_pixels_of_not_fire s inp hf⟩
  · intro i
    unfold ignitesPixel
    rw [hf, Bool.false_and]
  · rw [loopTrigger_pixels, hf]
    rfl

/-- C13, on a field of pixels `{200, 9}` with `last_change = 0.3`, 50 ms after
the last sample and a pending change of 1. -/
theorem non_sampling_iteration_only_decays_witness :
    sampledChange ⟨0, 3 / 10, fun _ => ⟨200, 9⟩⟩ ⟨50, 1, 90, fun _ => (0, 0)⟩ = 0 ∧
    loopFires ⟨0, 3 / 10, fun _ => ⟨200, 9⟩⟩ ⟨50, 1, 90, fun _ => (0, 0)⟩ = false ∧
    (∀ i : Fin LED_COUNT,
      ignitesPixel ⟨0, 3 / 10, fun _ => ⟨200, 9⟩⟩ ⟨50, 1, 90, fun _ => (0, 0)⟩ i = false) ∧
    (loopTrigger ⟨0, 3 / 10, fun _ => ⟨200, 9⟩⟩ ⟨50, 1, 90, fun _ => (0, 0)⟩).pixels =
      (fun _ => ⟨200, 9⟩) ∧
    (loop ⟨0, 3 / 10, fun _ => ⟨200, 9⟩⟩ ⟨50, 1, 90, fun _ => (0, 0)⟩).pixels =
      decayField (fun _ => ⟨200, 9⟩) :=
  non_sampling_iteration_only_decays ⟨0, 3 / 10, fun _ => ⟨200, 9⟩⟩
    ⟨50, 1, 90, fun _ => (0, 0)⟩ (by decide)

/-! ## Helper lemmas: the filter invariant -/

/-- When only the first axis moves, the metric is the absolute rounded
difference on that axis. -/
theorem metric_first_axis_only (st : FilterState) (a : Fin 3 → ℤ)
    (h1 : st.prevFiltered 1 = 0) (h1' : (getAccelerometerChange st a).2.filtered 1 = 0)
    (h2 : st.prevFiltered 2 = 0) (h2' : (getAccelerometerChange st a).2.filtered 2 = 0) :
    (getAccelerometerChange st a).1 =
      |fl (st.prevFiltered 0 - (getAccelerometerChange st a).2.filtered 0)| := by
  have hd := isF32_abs _ (isF32_fl (st.prevFiltered 0 - (getAccelerometerChange st a).2.filtered 0))
  rw [getAccelerometerChange_total, h1, h1', h2, h2', sub_zero, fl_zero, abs_zero, add_zero,
    add_zero, zero_add, (hd : fl _ = _), (hd : fl _ = _), (hd : fl _ = _)]

/-- C5 (amended), on the first call from power-on with raw reading `(1, 0, 0)`:
no operation rounds and the call returns `1/256`. -/
theorem accelerometer_change_is_rounded_sum_witness :
    ((∀ i : Fin 3, (getAccelerometerChange initFilter ![1, 0, 0]).2.filtered i =
      fl (scaledReading ![1, 0, 0] i / 2 + fl (initFilter.filtered i / 2))) ∧
    (getAccelerometerChange initFilter ![1, 0, 0]).1 =
      fl (fl (fl (0 + |fl (initFilter.prevFiltered 0 -
          (getAccelerometerChange initFilter ![1, 0, 0]).2.filtered 0)|) +
        |fl (initFilter.prevFiltered 1 -
          (getAccelerometerChange initFilter ![1, 0, 0]).2.filtered 1)|) +
        |fl (initFilter.prevFiltered 2 -
          (getAccelerometerChange initFilter ![1, 0, 0]).2.filtered 2)|) ∧
    ((∀ i, IsF32 (initFilter.prevFiltered i -
        (getAccelerometerChange initFilter ![1, 0, 0]).2.filtered i)) →
      IsF32 (|initFilter.prevFiltered 0 -
          (getAccelerometerChange initFilter ![1, 0, 0]).2.filtered 0| +
        |initFilter.prevFiltered 1 -
          (getAccelerometerChange initFilter ![1, 0, 0]).2.filtered 1|) →
      IsF32 (|initFilter.prevFiltered 0 -
          (getAccelerometerChange initFilter ![1, 0, 0]).2.filtered 0| +
        |initFilter.prevFiltered 1 -
          (getAccelerometerChange initFilter ![1, 0, 0]).2.filtered 1| +
        |initFilter.prevFiltered 2 -
          (getAccelerometerChange initFilter ![1, 0, 0]).2.filtered 2|) →
      (getAccelerometerChange initFilter ![1, 0, 0]).1 =
        ∑ i : Fin 3, |initFilter.prevFiltered i -
          (getAccelerometerChange initFilter ![1, 0, 0]).2.filtered i|) ∧
    0 ≤ (getAccelerometerChange initFilter ![1, 0, 0]).1 ∧
    (∀ i : Fin 3, (getAccelerometerChange initFilter ![1, 0, 0]).2.prevFiltered i =
      (getAccelerometerChange initFilter ![1, 0, 0]).2.filtered i)) ∧
    (getAccelerometerChange initFilter ![1, 0, 0]).2.filtered 0 = 1 / 256 ∧
    (getAccelerometerChange initFilter ![1, 0, 0]).1 = 1 / 256 := by
  have hthm := accelerometer_change_is_rounded_sum initFilter ![1, 0, 0]
    (fun i => by fin_cases i <;> decide)
  obtain ⟨b0, b1, b2, _⟩ := filterAfter_unit_reading 1 (by decide)
  have hf0 : (getAccelerometerChange initFilter ![1, 0, 0]).2.filtered 0 = 1 / 256 := by
    have h : (getAccelerometerChange initFilter ![1, 0, 0]).2.filtered 0 =
        (1 - (1 / 2 : ℚ) ^ 1) / 128 := b0
    rw [h]
    norm_num
  refine ⟨hthm, hf0, ?_⟩
  have hm := metric_first_axis_only initFilter ![1, 0, 0] rfl b1 rfl b2
  rw [hm, hf0]
  have hd : IsF32 (initFilter.prevFiltered 0 - 1 / 256) :=
    isF32_of_eq_dyadic _ (-1) (-8) (by decide) (by decide) (by norm_num [initFilter])
  rw [(hd : fl _ = _)]
  have hv : initFilter.prevFiltered 0 - 1 / 256 = -(1 / 256 : ℚ) := by norm_num [initFilter]
  rw [hv, abs_neg, abs_of_pos (by norm_num)]

/-- C15: from `last_change = 0`, after any sequence of motion-change values
`last_change` is either exactly 0 or strictly greater than 0.25, both for the
trigger on its own and for whole iterations of `loop()`. -/
theorem last_change_zero_or_above_threshold :
    (∀ cs : List ℚ, lastChangeAfter 0 cs = 0 ∨ lastChangeAfter 0 cs > 1 / 4) ∧
    (∀ (lastCheck : Nat) (px : PixelField) (inps : List LoopInput),
      (runLoop ⟨lastCheck, 0, px⟩ inps).last_change = 0 ∨
      (runLoop ⟨lastCheck, 0, px⟩ inps).last_change > 1 / 4) :=
  ⟨fun cs => lastChangeAfter_zero_or_gt 0 cs (Or.inl rfl),
    fun lastCheck px inps => runLoop_last_change_zero_or_gt ⟨lastCheck, 0, px⟩ inps (Or.inl rfl)⟩

/-- C16: an iteration that does not sample resets `last_change` to 0, so in a
sampling iteration that follows it the trigger fires if and only if the sampled
change exceeds 0.25, whatever `last_change` was before. -/
theorem fires_after_idle_iteration (s : LoopState) (idle inp : LoopInput)
    (h1 : sampleDue idle.now s.lastCheck = false)
    (h2 : sampleDue inp.now (loop s idle).lastCheck = true) :
    (loop s idle).last_change = 0 ∧
    (loopFires (loop s idle) inp = true ↔ inp.accChange > 1 / 4) := by
  obtain ⟨_, _, _, hl⟩ := loop_of_not_due s idle h1
  refine ⟨hl, ?_⟩
  rw [loopFires_iff, hl]
  constructor
  · intro h
    exact h.2.1
  · intro h
    exact ⟨h2, h, by linarith⟩

/-- C16, on two successive samples of 0.5 (at 101 ms and 202 ms) separated by
an iteration at 150 ms that does not sample: both samples fire. -/
theorem fires_after_idle_iteration_witness :
    ((loop (loop ⟨0, 0, initPixels⟩ ⟨101, 1 / 2, 90, fun _ => (0, 0)⟩)
        ⟨150, 1 / 2, 90, fun _ => (0, 0)⟩).last_change = 0 ∧
     (loopFires (loop (loop ⟨0, 0, initPixels⟩ ⟨101, 1 / 2, 90, fun _ => (0, 0)⟩)
        ⟨150, 1 / 2, 90, fun _ => (0, 0)⟩) ⟨202, 1 / 2, 90, fun _ => (0, 0)⟩ = true ↔
      (1 / 2 : ℚ) > 1 / 4)) ∧
    loopFires ⟨0, 0, initPixels⟩ ⟨101, 1 / 2, 90, fun _ => (0, 0)⟩ = true ∧
    (loop ⟨0, 0, initPixels⟩ ⟨101, 1 / 2, 90, fun _ => (0, 0)⟩).last_change = 1 / 2 ∧
    loopFires (loop (loop ⟨0, 0, initPixels⟩ ⟨101, 1 / 2, 90, fun _ => (0, 0)⟩)
        ⟨150, 1 / 2, 90, fun _ => (0, 0)⟩) ⟨202, 1 / 2, 90, fun _ => (0, 0)⟩ = true := by
  have hf1 : loopFires ⟨0, 0, initPixels⟩ ⟨101, 1 / 2, 90, fun _ => (0, 0)⟩ = true :=
    (loopFires_iff _ _).mpr ⟨by decide, by norm_num, by norm_num⟩
  have hlc1 : (loop ⟨0, 0, initPixels⟩ ⟨101, 1 / 2, 90, fun _ => (0, 0)⟩).lastCheck = 101 :=
    loop_lastCheck_of_due _ _ (by decide)
  have hidle : sampleDue 150
      (loop ⟨0, 0, initPixels⟩ ⟨101, 1 / 2, 90, fun _ => (0, 0)⟩).lastCheck = false := by
    rw [hlc1]
    decide
  have hlc2 : (loop (loop ⟨0, 0, initPixels⟩ ⟨101, 1 / 2, 90, fun _ => (0, 0)⟩)
      ⟨150, 1 / 2, 90, fun _ => (0, 0)⟩).lastCheck = 101 := by
    rw [(loop_of_not_due _ ⟨150, 1 / 2, 90, fun _ => (0, 0)⟩ hidle).2.2.1, hlc1]
  have hdue : sampleDue 202 (loop (loop ⟨0, 0, initPixels⟩ ⟨101, 1 / 2, 90, fun _ => (0, 0)⟩)
      ⟨150, 1 / 2, 90, fun _ => (0, 0)⟩).lastCheck = true := by
    rw [hlc2]
    decide
  have hthm := fires_after_idle_iteration
    (loop ⟨0, 0, initPixels⟩ ⟨101, 1 / 2, 90, fun _ => (0, 0)⟩)
    ⟨150, 1 / 2, 90, fun _ => (0, 0)⟩ ⟨202, 1 / 2, 90, fun _ => (0, 0)⟩ hidle hdue
  exact ⟨hthm, hf1, loop_last_change_of_fire _ _ hf1, hthm.2.mpr (by norm_num)⟩

/-! ## Helper lemmas: a pixel that is not re-ignited -/

theorem decayTick_iterate_ignited (c n : Nat) :
    decayTick^[n] ⟨252, c⟩ = ⟨252 - 3 * n, c⟩ := by
  by_cases h : n ≤ 84
  · exact decayTick_iterate_value 252 c (by decide) n (by omega)
  · obtain ⟨m, rfl⟩ : ∃ m, n = m + 84 := ⟨n - 84, by omega⟩
    rw [Function.iterate_add_apply, decayTick_iterate_value 252 c (by decide) 84 (by decide)]
    have h0 : 252 - 3 * (m + 84) = 0 := by omega
    rw [h0]
    exact decayTick_iterate_zero c m

/-- The render loop on a byte of at least 3 emits it as it is and stores 3 less. -/
theorem renderPixel_of_ge (p : Pixel) (h3 : 3 ≤ p.value) (hb : p.value < 256) :
    renderPixel p = (Led.fromPalette p.color p.value, ⟨p.value - 3, p.color⟩) := by
  unfold renderPixel
  have h : ¬ p.value < 3 := by omega
  rw [if_neg h]
  have hv : (p.value + 256 - 3) % 256 = p.value - 3 := by omega
  rw [hv]

theorem noReignition_append (i : Fin LED_COUNT) (s : LoopState) (pre post : List LoopInput)
    (h : noReignition i s (pre ++ post) = true) :
    noReignition i s pre = true ∧ noReignition i (runLoop s pre) post = true := by
  induction pre generalizing s with
  | nil => exact ⟨rfl, h⟩
  | cons inp rest ih =>
    simp only [List.cons_append, noReignition, Bool.and_eq_true] at h
    obtain ⟨h1, h2⟩ := ih (loop s inp) h.2
    refine ⟨?_, h2⟩
    simp only [noReignition, Bool.and_eq_true]
    exact ⟨h.1, h1⟩

/-- Over iterations that do not ignite pixel `i`, it only takes decay ticks. -/
theorem runLoop_pixel_of_noReignition (i : Fin LED_COUNT) (s : LoopState)
    (inps : List LoopInput) (h : noReignition i s inps = true) :
    (runLoop s inps).pixels i = decayTick^[inps.length] (s.pixels i) := by
  induction inps generalizing s with
  | nil => rfl
  | cons inp rest ih =>
    simp only [noReignition, Bool.and_eq_true, Bool.not_eq_true'] at h
    have hstep : (loop s inp).pixels i = decayTick (s.pixels i) := by
      rw [loop_pixel_eq, loopTrigger_pixel_of_not_ignites s inp i h.1]
    have hrun : runLoop s (inp :: rest) = runLoop (loop s inp) rest := rfl
    rw [hrun, ih (loop s inp) h.2, hstep, List.length_cons, Function.iterate_succ_apply]

theorem ignitesPixel_of_not_due (s : LoopState) (inp : LoopInput) (i : Fin LED_COUNT)
    (h : sampleDue inp.now s.lastCheck = false) : ignitesPixel s inp i = false := by
  unfold ignitesPixel
  rw [(loop_of_not_due s inp h).2.1, Bool.false_and]

/-- C17: the render loop passes a stored byte `b >= 3` to the palette lookup as
it is and stores `b - 3`. A pixel ignited in an iteration is emitted at 255 and
stored as 252 in that iteration; as long as it is not ignited again, the
iteration that follows `n` further ones emits it at `252 - 3 n` while `n < 84`
and black from then on: 255, 252, ..., 3 over 85 consecutive iterations and
black from the 86th. -/
theorem ignited_pixel_emission (s : LoopState) (inp : LoopInput) (i : Fin LED_COUNT)
    (hig : ignitesPixel s inp i = true) :
    (∀ p : Pixel, 3 ≤ p.value → p.value < 256 →
      renderPixel p = (Led.fromPalette p.color p.value, ⟨p.value - 3, p.color⟩)) ∧
    ∃ c, loopFrame s inp i = Led.fromPalette c 255 ∧
      (loop s inp).pixels i = ⟨252, c⟩ ∧
      ∀ (pre : List LoopInput) (nxt : LoopInput),
        noReignition i (loop s inp) (pre ++ [nxt]) = true →
        loopFrame (runLoop (loop s inp) pre) nxt i =
          (if pre.length < 84 then Led.fromPalette c (252 - 3 * pre.length)
            else Led.black) ∧
        (loop (runLoop (loop s inp) pre) nxt).pixels i =
          ⟨252 - 3 * (pre.length + 1), c⟩ := by
  refine ⟨renderPixel_of_ge, ?_⟩
  obtain ⟨k, _, _, _, hframe, hstore⟩ := loop_pixel_of_ignites s inp i hig
  refine ⟨_, hframe, hstore, ?_⟩
  intro pre nxt hno
  obtain ⟨hpre, hnxt⟩ := noReignition_append i (loop s inp) pre [nxt] hno
  have hn : ignitesPixel (runLoop (loop s inp) pre) nxt i = false := by
    simp only [noReignition, Bool.and_eq_true, Bool.not_eq_true'] at hnxt
    exact hnxt.1
  have hpix : (loopTrigger (runLoop (loop s inp) pre) nxt).pixels i =
      ⟨252 - 3 * pre.length,
        toByte (((inp.draws k).2 : ℤ) + (sampledColor s inp : ℤ))⟩ := by
    rw [loopTrigger_pixel_of_not_ignites _ nxt i hn,
      runLoop_pixel_of_noReignition i (loop s inp) pre hpre, hstore,
      decayTick_iterate_ignited]
  constructor
  · rw [loopFrame_pixel_eq, hpix]
    by_cases hlt : pre.length < 84
    · rw [if_pos hlt, renderPixel_of_ge _ (by show 3 ≤ 252 - 3 * pre.length; omega)
        (by show 252 - 3 * pre.length < 256; omega)]
    · rw [if_neg hlt]
      have h0 : 252 - 3 * pre.length = 0 := by omega
      rw [h0, renderPixel_dark]
  · rw [loop_pixel_eq, hpix, ← decayTick_iterate_ignited, ← decayTick_iterate_ignited _
      (pre.length + 1)]
    exact (Function.iterate_succ_apply' decayTick pre.length _).symm

/-- C17, on the firing iteration from the initial state that selects pixel 5
(heading 90, offset 3), followed by iterations at 110 ms and 120 ms that do not
sample and so do not ignite pixel 5 again. -/
theorem ignited_pixel_emission_witness :
    ((∀ p : Pixel, 3 ≤ p.value → p.value < 256 →
      renderPixel p = (Led.fromPalette p.color p.value, ⟨p.value - 3, p.color⟩)) ∧
    ∃ c, loopFrame ⟨0, 0, initPixels⟩ ⟨101, 2 / 5, 90, fun _ => (5, 3)⟩ 5 =
        Led.fromPalette c 255 ∧
      (loop ⟨0, 0, initPixels⟩ ⟨101, 2 / 5, 90, fun _ => (5, 3)⟩).pixels 5 = ⟨252, c⟩ ∧
      ∀ (pre : List LoopInput) (nxt : LoopInput),
        noReignition 5 (loop ⟨0, 0, initPixels⟩ ⟨101, 2 / 5, 90, fun _ => (5, 3)⟩)
          (pre ++ [nxt]) = true →
        loopFrame (runLoop (loop ⟨0, 0, initPixels⟩ ⟨101, 2 / 5, 90, fun _ => (5, 3)⟩) pre)
          nxt 5 =
          (if pre.length < 84 then Led.fromPalette c (252 - 3 * pre.length)
            else Led.black) ∧
        (loop (runLoop (loop ⟨0, 0, initPixels⟩ ⟨101, 2 / 5, 90, fun _ => (5, 3)⟩) pre)
          nxt).pixels 5 = ⟨252 - 3 * (pre.length + 1), c⟩) ∧
    noReignition 5 (loop ⟨0, 0, initPixels⟩ ⟨101, 2 / 5, 90, fun _ => (5, 3)⟩)
      ([⟨110, 1, 90, fun _ => (5, 3)⟩] ++ [⟨120, 1, 90, fun _ => (5, 3)⟩]) = true := by
  have hf : loopFires ⟨0, 0, initPixels⟩ ⟨101, 2 / 5, 90, fun _ => (5, 3)⟩ = true :=
    (loopFires_iff _ _).mpr ⟨by decide, by norm_num, by norm_num⟩
  have hig : ignitesPixel ⟨0, 0, initPixels⟩ ⟨101, 2 / 5, 90, fun _ => (5, 3)⟩ 5 = true := by
    unfold ignitesPixel
    rw [hf, Bool.true_and]
    exact List.any_eq_true.mpr ⟨0, List.mem_range.mpr (by decide), by decide⟩
  have hlc : (loop ⟨0, 0, initPixels⟩ ⟨101, 2 / 5, 90, fun _ => (5, 3)⟩).lastCheck = 101 :=
    loop_lastCheck_of_due _ _ (by decide)
  have hidle1 : sampleDue 110
      (loop ⟨0, 0, initPixels⟩ ⟨101, 2 / 5, 90, fun _ => (5, 3)⟩).lastCheck = false := by
    rw [hlc]
    decide
  have hlc2 : (loop (loop ⟨0, 0, initPixels⟩ ⟨101, 2 / 5, 90, fun _ => (5, 3)⟩)
      ⟨110, 1, 90, fun _ => (5, 3)⟩).lastCheck = 101 := by
    rw [(loop_of_not_due _ ⟨110, 1, 90, fun _ => (5, 3)⟩ hidle1).2.2.1, hlc]
  have hidle2 : sampleDue 120 (loop (loop ⟨0, 0, initPixels⟩
      ⟨101, 2 / 5, 90, fun _ => (5, 3)⟩) ⟨110, 1, 90, fun _ => (5, 3)⟩).lastCheck = false := by
    rw [hlc2]
    decide
  refine ⟨ignited_pixel_emission ⟨0, 0, initPixels⟩ ⟨101, 2 / 5, 90, fun _ => (5, 3)⟩ 5 hig, ?_⟩
  simp only [List.singleton_append, noReignition, Bool.and_eq_true, Bool.not_eq_true',
    and_true]
  exact ⟨ignitesPixel_of_not_due _ ⟨110, 1, 90, fun _ => (5, 3)⟩ 5 hidle1,
    ignitesPixel_of_not_due _ ⟨120, 1, 90, fun _ => (5, 3)⟩ 5 hidle2⟩

end PurpleHat
